import Mathlib

/-!
Verification development for the trustless file server pallet core:
the chunked Merkle tree engine (chunk planning, balanced tree construction,
root extraction, sibling-path proofs), its SCALE encoding, and the
content-address encoder.  Byte sequences are modelled as `List Nat` with
each entry below 256; machine integers are `Nat` with explicit wraparound
where the source can overflow.
-/

set_option maxRecDepth 10000

namespace TFS

/-- Fuelled worker for `chunksOf`; structural recursion on the fuel keeps
the function reducible inside the kernel.  With positive chunk size and
fuel at least the list length the fuel never runs out. -/
def chunksOfGo (cs : Nat) : Nat → List α → List (List α)
  | 0, _ => []
  | _ + 1, [] => []
  | fuel + 1, l => l.take cs :: chunksOfGo cs fuel (l.drop cs)

/-- Splits a list into consecutive chunks of `cs` elements, the last chunk
possibly shorter; mirrors the slice `chunks` iterator used by the source
(`file_bytes.chunks(chunk_size)`), which yields nothing on an empty slice.
Every call site passes a positive chunk size. -/
def chunksOf (cs : Nat) (l : List α) : List (List α) :=
  chunksOfGo cs l.length l

theorem chunksOfGo_fuel (cs : Nat) (hcs : 0 < cs) :
    ∀ fuel1 fuel2 (l : List α), l.length ≤ fuel1 → l.length ≤ fuel2 →
      chunksOfGo cs fuel1 l = chunksOfGo cs fuel2 l := by
  intro fuel1
  induction fuel1 with
  | zero =>
    intro fuel2 l h1 _
    have : l = [] := List.eq_nil_of_length_eq_zero (Nat.le_zero.mp h1)
    subst this
    cases fuel2 <;> rfl
  | succ n ih =>
    intro fuel2 l h1 h2
    cases l with
    | nil => cases fuel2 <;> rfl
    | cons a t =>
      cases fuel2 with
      | zero => simp at h2
      | succ m =>
        simp only [chunksOfGo]
        have hlen : ((a :: t).drop cs).length = t.length + 1 - cs := by
          rw [List.length_drop, List.length_cons]
        have hd : ((a :: t).drop cs).length ≤ n := by
          simp only [List.length_cons] at h1
          omega
        have hd2 : ((a :: t).drop cs).length ≤ m := by
          simp only [List.length_cons] at h2
          omega
        rw [ih _ _ hd hd2]

theorem chunksOf_nil (cs : Nat) : chunksOf cs ([] : List α) = [] := rfl

/-- The recursion equation actually used in proofs. -/
theorem chunksOf_cons (cs : Nat) (hcs : 0 < cs) (a : α) (t : List α) :
    chunksOf cs (a :: t) =
      (a :: t).take cs :: chunksOf cs ((a :: t).drop cs) := by
  simp only [chunksOf, List.length_cons, chunksOfGo]
  have hlen : ((a :: t).drop cs).length = t.length + 1 - cs := by
    rw [List.length_drop, List.length_cons]
  have hd : ((a :: t).drop cs).length ≤ t.length := by omega
  rw [chunksOfGo_fuel cs hcs t.length ((a :: t).drop cs).length _ hd (Nat.le_refl _)]

/-! ### SHA-256 (FIPS 180-4), the semantics of the library call
`sp_io::hashing::sha2_256` used by the source.  Words are `Nat` kept below
`2 ^ 32`. -/

def M32 : Nat := 4294967296

def add32 (x y : Nat) : Nat := (x + y) % M32

/-- Right rotation of a 32-bit word given as a `Nat` below `2 ^ 32`. -/
def rotr32 (x n : Nat) : Nat := (x >>> n) + (x % 2 ^ n) * 2 ^ (32 - n)

def xor3 (a b c : Nat) : Nat := Nat.xor (Nat.xor a b) c

def bigSigma0 (x : Nat) : Nat := xor3 (rotr32 x 2) (rotr32 x 13) (rotr32 x 22)

def bigSigma1 (x : Nat) : Nat := xor3 (rotr32 x 6) (rotr32 x 11) (rotr32 x 25)

def smallSigma0 (x : Nat) : Nat := xor3 (rotr32 x 7) (rotr32 x 18) (x >>> 3)

def smallSigma1 (x : Nat) : Nat := xor3 (rotr32 x 17) (rotr32 x 19) (x >>> 10)

def chFn (e f g : Nat) : Nat := Nat.xor (Nat.land e f) (Nat.land (4294967295 - e) g)

def majFn (a b c : Nat) : Nat := xor3 (Nat.land a b) (Nat.land a c) (Nat.land b c)

/-- The 64 round constants of FIPS 180-4, written in decimal. -/
def shaK : List Nat :=
  [1116352408, 1899447441, 3049323471, 3921009573, 961987163,
   1508970993, 2453635748, 2870763221, 3624381080, 310598401,
   607225278, 1426881987, 1925078388, 2162078206, 2614888103,
   3248222580, 3835390401, 4022224774, 264347078, 604807628,
   770255983, 1249150122, 1555081692, 1996064986, 2554220882,
   2821834349, 2952996808, 3210313671, 3336571891, 3584528711,
   113926993, 338241895, 666307205, 773529912, 1294757372,
   1396182291, 1695183700, 1986661051, 2177026350, 2456956037,
   2730485921, 2820302411, 3259730800, 3345764771, 3516065817,
   3600352804, 4094571909, 275423344, 430227734, 506948616,
   659060556, 883997877, 958139571, 1322822218, 1537002063,
   1747873779, 1955562222, 2024104815, 2227730452, 2361852424,
   2428436474, 2756734187, 3204031479, 3329325298]

structure ShaState where
  a : Nat
  b : Nat
  c : Nat
  d : Nat
  e : Nat
  f : Nat
  g : Nat
  hh : Nat
deriving Repr, DecidableEq

/-- The eight initial hash values of FIPS 180-4, written in decimal. -/
def shaInit : ShaState :=
  ⟨1779033703, 3144134277, 1013904242, 2773480762,
   1359893119, 2600822924, 528734635, 1541459225⟩

def shaRound (st : ShaState) (kw : Nat × Nat) : ShaState :=
  let t1 := add32 (add32 (add32 st.hh (bigSigma1 st.e))
    (chFn st.e st.f st.g)) (add32 kw.1 kw.2)
  let t2 := add32 (bigSigma0 st.a) (majFn st.a st.b st.c)
  ⟨add32 t1 t2, st.a, st.b, st.c, add32 st.d t1, st.e, st.f, st.g⟩

/-- Converts groups of four bytes (big endian) into 32-bit words. -/
def bytesToWords : List Nat → List Nat
  | a :: b :: c :: d :: rest => (((a * 256 + b) * 256 + c) * 256 + d) :: bytesToWords rest
  | _ => []

/-- Extends the 16 message-schedule words by `fuel` further words. -/
def scheduleW (w : List Nat) : Nat → List Nat
  | 0 => w
  | t + 1 =>
    let n := w.length
    scheduleW (w ++ [add32 (add32 (w.getD (n - 16) 0) (smallSigma0 (w.getD (n - 15) 0)))
      (add32 (w.getD (n - 7) 0) (smallSigma1 (w.getD (n - 2) 0)))]) t

def compressBlock (st0 : ShaState) (block : List Nat) : ShaState :=
  let w := scheduleW (bytesToWords block) 48
  let st := (shaK.zip w).foldl shaRound st0
  ⟨add32 st0.a st.a, add32 st0.b st.b, add32 st0.c st.c, add32 st0.d st.d,
   add32 st0.e st.e, add32 st0.f st.f, add32 st0.g st.g, add32 st0.hh st.hh⟩

/-- Four big-endian bytes of a 32-bit word. -/
def toBE4 (x : Nat) : List Nat :=
  [x / 16777216 % 256, x / 65536 % 256, x / 256 % 256, x % 256]

/-- Eight big-endian bytes of a 64-bit length field. -/
def toBE8 (x : Nat) : List Nat := toBE4 (x / M32 % M32) ++ toBE4 (x % M32)

/-- SHA-256 padding: append `0x80`, zeros to 56 mod 64, then the 64-bit
bit length. -/
def sha256pad (msg : List Nat) : List Nat :=
  let L := msg.length
  let k := (64 - (L + 9) % 64) % 64
  msg ++ [0x80] ++ List.replicate k 0 ++ toBE8 (L * 8)

/-- SHA-256 digest of a byte list, as 32 bytes. -/
def sha256 (msg : List Nat) : List Nat :=
  let st := (chunksOf 64 (sha256pad msg)).foldl compressBlock shaInit
  toBE4 st.a ++ toBE4 st.b ++ toBE4 st.c ++ toBE4 st.d ++
    toBE4 st.e ++ toBE4 st.f ++ toBE4 st.g ++ toBE4 st.hh

theorem sha256_length (msg : List Nat) : (sha256 msg).length = 32 := by
  simp [sha256, toBE4]

/-! ### Chunk planning (`calculate_chunk_size`, `calculate_has_boundary`,
`calculate_pieces`), transcribed from `src/file_merkle_tree.rs`. -/

/-- File chunks to build the merkle tree are hardcoded to 1KB. -/
def DEFAULT_CHUNK_SIZE : Nat := 1024

/-- Length of a sha256 hash, in bytes. -/
def HASH_SIZE : Nat := 32

/-- Maximum number of pieces the merkle tree can have. -/
def MAX_MERKLE_TREE_NODES : Nat := 64

/-- Maximum size of the merkle tree. -/
def MAX_MERKLE_TREE_SIZE : Nat := MAX_MERKLE_TREE_NODES * HASH_SIZE

/-- In case the number of bytes is not a power of two, we fill with zeroes. -/
def CHUNK_FILLER : List Nat := List.replicate 32 0

def calculate_chunk_size (file_size : Nat) : Nat :=
  let chunk_size := file_size / 64
  if chunk_size < DEFAULT_CHUNK_SIZE then DEFAULT_CHUNK_SIZE else chunk_size

def calculate_has_boundary (file_size : Nat) : Bool :=
  file_size % calculate_chunk_size file_size != 0

def calculate_pieces (file_size : Nat) : Nat :=
  let chunk_size := calculate_chunk_size file_size
  let pieces := file_size / chunk_size
  if calculate_has_boundary file_size then pieces + 1 else pieces

/-- Fuelled floor base-2 logarithm (`Nat.log2` is not kernel-reducible,
this version is). -/
def log2go : Nat → Nat → Nat
  | 0, _ => 0
  | fuel + 1, n => if n ≤ 1 then 0 else log2go fuel (n / 2) + 1

theorem log2go_eq (fuel n : Nat) (h : n ≤ fuel) : log2go fuel n = Nat.log2 n := by
  induction fuel generalizing n with
  | zero =>
    have : n = 0 := Nat.le_zero.mp h
    subst this
    rw [Nat.log2]
    rfl
  | succ m ih =>
    rw [Nat.log2]
    by_cases h2 : n ≤ 1
    · simp only [log2go, if_pos h2]
      rw [if_neg (by omega : ¬ 2 ≤ n)]
    · have hge : 2 ≤ n := by omega
      have hd : n / 2 ≤ m := by omega
      simp only [log2go, if_neg h2, if_pos hge]
      rw [ih _ hd]

/-- `usize::next_power_of_two` from the Rust standard library: the least
power of two that is greater than or equal to the argument, with
`next_power_of_two 0 = 1`. -/
def next_power_of_two (n : Nat) : Nat :=
  if n ≤ 1 then 1 else 2 ^ (log2go (n - 1) (n - 1) + 1)

/-! ### The `FileMerkleTree` structure and its construction. -/

/-- Represents the data structure of a merkle tree.  `merkle_tree` is the
flat level-order node buffer (a `BoundedVec` with byte capacity
`MAX_MERKLE_TREE_SIZE` in the source). -/
structure FileMerkleTree where
  merkle_tree : List Nat
  file_size : Nat
  boundary_hash : Option (List Nat)
deriving Repr, DecidableEq

/-- Leaf hash of one chunk, from the closure inside `FileMerkleTree::new`:
a short (final) chunk is written into a zeroed buffer of `chunk_size`
bytes — equivalently zero-padded on the right — before hashing. -/
def chunkLeaf (chunk_size : Nat) (chunk : List Nat) : List Nat :=
  if chunk.length ≠ chunk_size then
    sha256 (chunk ++ List.replicate (chunk_size - chunk.length) 0)
  else sha256 chunk

/-- The `boundary_hash` assignment effected while mapping over the chunks
in `FileMerkleTree::new`: each chunk whose length differs from
`chunk_size` overwrites the mutable option with the hash of its unpadded
bytes. -/
def boundaryFold (chunk_size : Nat) (chunks : List (List Nat)) : Option (List Nat) :=
  chunks.foldl
    (fun acc chunk => if chunk.length ≠ chunk_size then some (sha256 chunk) else acc) none

/-- The 32-byte node stored at index `i` of the flat buffer,
`tree[i * HASH_SIZE .. (i + 1) * HASH_SIZE]`. -/
def node (tree : List Nat) (i : Nat) : List Nat :=
  (tree.drop (i * HASH_SIZE)).take HASH_SIZE

/-- One pass of the inner `for i in (pos..(num_items + pos)).step_by(2)`
loop of `FileMerkleTree::new`, producing the bytes it appends.  The loop
only ever reads node indexes strictly below the point where it appends, so
reading from the buffer as it stood when the level started is the same as
reading from the growing buffer. -/
def combineRange (tree : List Nat) : Nat → Nat → List Nat
  | _, 0 => []
  | i, cnt + 1 =>
    sha256 (node tree i ++ node tree (i + 1)) ++ combineRange tree (i + 2) cnt

/-- Fuelled worker for the `while num_items > 1` loop of
`FileMerkleTree::new`.  `num_items` at least halves every iteration, so
fuel `num_items` never runs out. -/
def buildLoopGo : Nat → List Nat → Nat → Nat → List Nat
  | 0, tree, _, _ => tree
  | fuel + 1, tree, pos, num_items =>
    if num_items ≤ 1 then tree
    else
      buildLoopGo fuel (tree ++ combineRange tree pos ((num_items + 1) / 2))
        (pos + num_items) (num_items / 2)

/-- The `while num_items > 1` level-combination loop: each pass appends
`ceil(num_items / 2)` parent hashes, then advances `pos` and halves
`num_items`. -/
def buildLoop (tree : List Nat) (pos num_items : Nat) : List Nat :=
  buildLoopGo num_items tree pos num_items

namespace FileMerkleTree

/-- `FileMerkleTree::new`.  The source cannot signal failure through its
return type; the `Option` models the `tree.try_into().unwrap()` panic that
fires when the built buffer exceeds the `MAX_MERKLE_TREE_SIZE` byte
capacity of the `BoundedVec` (`none` = panic). -/
def new (file_bytes : List Nat) : Option FileMerkleTree :=
  let chunk_size := calculate_chunk_size file_bytes.length
  let chunks := chunksOf chunk_size file_bytes
  let pieces := chunks.length
  let boundary_hash := boundaryFold chunk_size chunks
  let leafBytes := (chunks.map (chunkLeaf chunk_size)).flatten
  let num_items := next_power_of_two pieces
  let padded := leafBytes ++ (List.replicate (num_items - pieces) CHUNK_FILLER).flatten
  let tree := buildLoop padded 0 num_items
  if tree.length ≤ MAX_MERKLE_TREE_SIZE then
    some { merkle_tree := tree, file_size := file_bytes.length, boundary_hash := boundary_hash }
  else none

def chunk_size (t : FileMerkleTree) : Nat := calculate_chunk_size t.file_size

def pieces (t : FileMerkleTree) : Nat := calculate_pieces t.file_size

def file_chunk_hash_at (t : FileMerkleTree) (position : Nat) : Option (List Nat) :=
  let pieces := t.pieces
  if position ≥ pieces then none
  else if position = pieces - 1 ∧ t.boundary_hash.isSome then t.boundary_hash
  else some ((t.merkle_tree.drop (position * HASH_SIZE)).take HASH_SIZE)

/-- Returns the merkle root of this file: the last 32 bytes of the
`merkle_tree` array. -/
def merkle_root (t : FileMerkleTree) : List Nat :=
  t.merkle_tree.drop (t.merkle_tree.length - HASH_SIZE)

end FileMerkleTree

/-- Fuelled worker for the recursive `find_proof`.  The source recursion
stops when `base == 1`; every reachable call has `base ≥ 1` (it starts at
a `next_power_of_two`, which is positive, and halving keeps it positive),
so the fuel — which covers `base` halvings — never runs out. -/
def find_proofGo : Nat → List Nat → Nat → Nat → Nat → List (List Nat)
  | 0, _, _, _, _ => []
  | fuel + 1, tree, position, first_index, base =>
    if base ≤ 1 then []
    else
      let sibling := if position % 2 = 0 then position + 1 else position - 1
      let parent := (position - first_index) / 2 + first_index + base
      node tree sibling :: find_proofGo fuel tree parent (first_index + base) (base / 2)

def find_proof (tree : List Nat) (position first_index base : Nat) : List (List Nat) :=
  find_proofGo base tree position first_index base

namespace FileMerkleTree

/-- Finds the merkle proof of a given piece, identified by its position. -/
def merkle_proof (t : FileMerkleTree) (piece : Nat) : Option (List (List Nat)) :=
  if piece ≥ t.pieces then none
  else some (find_proof t.merkle_tree piece 0 (next_power_of_two t.pieces))

end FileMerkleTree

/-- Safety checker mirroring `find_proof` step by step: at every level it
checks that the sibling slice
`tree[sibling * HASH_SIZE .. (sibling + 1) * HASH_SIZE]` lies inside the
buffer and that the `position - first_index` subtraction cannot
underflow.  These are exactly the operations that could panic in the
source. -/
def find_proof_boundsGo : Nat → List Nat → Nat → Nat → Nat → Bool
  | 0, _, _, _, _ => true
  | fuel + 1, tree, position, first_index, base =>
    if base ≤ 1 then true
    else
      let sibling := if position % 2 = 0 then position + 1 else position - 1
      let parent := (position - first_index) / 2 + first_index + base
      decide ((sibling + 1) * HASH_SIZE ≤ tree.length) &&
        decide (first_index ≤ position) &&
        find_proof_boundsGo fuel tree parent (first_index + base) (base / 2)

def find_proof_in_bounds (tree : List Nat) (position first_index base : Nat) : Bool :=
  find_proof_boundsGo base tree position first_index base

/-! ### SCALE encoding of `FileMerkleTree`, from the manual `Encode` and
`Decode` impls.  `usize` is serialized with `to_le_bytes`; on the wasm32
runtime target a `usize` is 4 bytes, which is the layout modelled here. -/

def toLE4 (n : Nat) : List Nat :=
  [n % 256, n / 256 % 256, n / 65536 % 256, n / 16777216 % 256]

def fromLE4 (l : List Nat) : Nat :=
  l.getD 0 0 + 256 * (l.getD 1 0 + 256 * (l.getD 2 0 + 256 * l.getD 3 0))

namespace FileMerkleTree

/-- `impl Encode for FileMerkleTree`: little-endian `file_size`, then the
boundary hash bytes when present, then the whole tree buffer. -/
def encode (t : FileMerkleTree) : List Nat :=
  toLE4 t.file_size ++
    (match t.boundary_hash with
      | some boundary => boundary
      | none => []) ++
    t.merkle_tree

/-- Outcome of running `Decode::decode`: a decoded value, a returned
`codec::Error`, or a Rust panic (from an `unwrap`). -/
inductive DecodeResult where
  | ok (t : FileMerkleTree)
  | err
  | panicked
deriving Repr, DecidableEq

/-- Tail of `Decode::decode` after the boundary step: the second
`input.read(&mut buff)?` (which consumes and discards 4 more bytes), then
`remaining_len` and the read of the whole remainder into `merkle_tree`.
The final `bytes.try_into().unwrap()` into the bounded vector panics when
more than `MAX_MERKLE_TREE_SIZE` bytes remain. -/
def decodeTail (file_size : Nat) (boundary : Option (List Nat)) (rest : List Nat) :
    DecodeResult :=
  if rest.length < 4 then .err
  else
    let tree := rest.drop 4
    if tree.length > MAX_MERKLE_TREE_SIZE then .panicked
    else .ok { merkle_tree := tree, file_size := file_size, boundary_hash := boundary }

/-- `impl Decode for FileMerkleTree`: read 4 bytes as a little-endian
`u32` file size; if `calculate_has_boundary` holds, read 32 boundary
bytes with `input.read(&mut bytes).unwrap()` — a failed read (fewer than
32 bytes left) therefore panics instead of returning an error; then
continue with `decodeTail`. -/
def decode (input : List Nat) : DecodeResult :=
  if input.length < 4 then .err
  else
    let file_size := fromLE4 (input.take 4)
    let rest := input.drop 4
    if calculate_has_boundary file_size then
      if rest.length < HASH_SIZE then .panicked
      else decodeTail file_size (some (rest.take HASH_SIZE)) (rest.drop HASH_SIZE)
    else decodeTail file_size none rest

end FileMerkleTree

/-! ### Content addressing (`src/ipfs.rs`). -/

/-- The base58btc (Bitcoin) alphabet used by the `bs58` crate, as ASCII
codes: digits 1-9, then upper case letters without I and O, then lower
case letters without l. -/
def BASE58_ALPHABET : List Nat :=
  [49, 50, 51, 52, 53, 54, 55, 56, 57,
   65, 66, 67, 68, 69, 70, 71, 72, 74, 75, 76, 77, 78,
   80, 81, 82, 83, 84, 85, 86, 87, 88, 89, 90,
   97, 98, 99, 100, 101, 102, 103, 104, 105, 106, 107,
   109, 110, 111, 112, 113, 114, 115, 116, 117, 118, 119, 120, 121, 122]

/-- The bytes interpreted as one big-endian number. -/
def bytesToNat (bytes : List Nat) : Nat :=
  bytes.foldl (fun acc b => acc * 256 + b) 0

/-- Fuelled base-58 digit extraction, most significant digit first. -/
def natToBase58Go : Nat → Nat → List Nat
  | 0, _ => []
  | fuel + 1, n => if n = 0 then [] else natToBase58Go fuel (n / 58) ++ [n % 58]

def natToBase58 (n : Nat) : List Nat := natToBase58Go n n

/-- `bs58::encode(..).into_vec()`: one alphabet character per base-58
digit of the big-endian value, preceded by one character 1 (ASCII 49) per
leading zero byte. -/
def bs58_encode (bytes : List Nat) : List Nat :=
  let zeros := (bytes.takeWhile (fun b => b == 0)).length
  List.replicate zeros 49 ++
    (natToBase58 (bytesToNat bytes)).map (fun d => BASE58_ALPHABET.getD d 0)

/-- `ipfs_get_hash_from_sha256`: flatten `[[0x12, 0x20], hash]` and
base-58 encode it. -/
def ipfs_get_hash_from_sha256 (hash : List Nat) : List Nat :=
  bs58_encode (0x12 :: 0x20 :: hash)

/-! ### Structured view of one tree level, used to reason about the flat
buffer, and the specification-level proof and verification procedures. -/

/-- Combines adjacent pairs of a level, left-then-right concatenation,
hashing with SHA-256 — the next level up of a tree level. -/
def combinePairs : List (List Nat) → List (List Nat)
  | a :: b :: rest => sha256 (a ++ b) :: combinePairs rest
  | _ => []

theorem combinePairs_length : ∀ l : List (List Nat), (combinePairs l).length = l.length / 2
  | [] => by simp [combinePairs]
  | [_] => by simp [combinePairs]
  | a :: b :: rest => by
    simp only [combinePairs, List.length_cons, combinePairs_length rest]
    omega

/-- All node hashes of the tree over a leaf level, level by level up to
and including the root. -/
def nodesList (level : List (List Nat)) : List (List Nat) :=
  if h : level.length ≤ 1 then level
  else level ++ nodesList (combinePairs level)
termination_by level.length
decreasing_by
  have hlen := combinePairs_length level
  omega

/-- The root hash of the tree over a leaf level: combine pairwise until a
single hash remains. -/
def rootOf (level : List (List Nat)) : List Nat :=
  if h : level.length ≤ 1 then level.headD []
  else rootOf (combinePairs level)
termination_by level.length
decreasing_by
  have hlen := combinePairs_length level
  omega

/-- The padded leaf level that `FileMerkleTree::new` builds for a file:
one `chunkLeaf` hash per chunk, padded with `CHUNK_FILLER` entries up to
the next power of two. -/
def leaf_level (file_bytes : List Nat) : List (List Nat) :=
  let chunk_size := calculate_chunk_size file_bytes.length
  let chunks := chunksOf chunk_size file_bytes
  chunks.map (chunkLeaf chunk_size) ++
    List.replicate (next_power_of_two chunks.length - chunks.length) CHUNK_FILLER

/-- Modelled from the spec: the per-level description of `proof_for` —
walk upward from the leaf level; at each level with more than one node
take the hash at index `position + 1` when the level-local position is
even and `position - 1` when odd, then advance to the parent position at
the combined level; the root level contributes nothing.  (Fuelled; the
level at least halves each step, so fuel `level.length` never runs
out.) -/
def proof_specGo : Nat → List (List Nat) → Nat → List (List Nat)
  | 0, _, _ => []
  | fuel + 1, level, p =>
    if level.length ≤ 1 then []
    else
      level.getD (if p % 2 = 0 then p + 1 else p - 1) [] ::
        proof_specGo fuel (combinePairs level) (p / 2)

def proof_spec (level : List (List Nat)) (p : Nat) : List (List Nat) :=
  proof_specGo level.length level p

/-- Modelled from the spec: the § 4.3 `verify` recomputation (the source
declares it a required contract but does not implement it).  Start from
the leaf hash; for each sibling hash in order, concatenate with the
current hash on the left when the current index is even and on the right
when odd, hash the pair with SHA-256, and halve the index. -/
def verifyGo : List Nat → Nat → List (List Nat) → List Nat
  | current, _, [] => current
  | current, index, sibling :: rest =>
    verifyGo (sha256 (if index % 2 = 0 then current ++ sibling else sibling ++ current))
      (index / 2) rest

/-- Modelled from the spec: `verify(leaf_hash, position, proof,
expected_root)` compares the § 4.3 recomputation with the expected
root. -/
def verify (leaf_hash : List Nat) (position : Nat) (proof : List (List Nat))
    (expected_root : List Nat) : Bool :=
  verifyGo leaf_hash position proof == expected_root

/-- The lowercase base-32 alphabet (RFC 4648): a-z then 2-7, as ASCII
codes. -/
def BASE32_ALPHABET : List Nat :=
  [97, 98, 99, 100, 101, 102, 103, 104, 105, 106, 107, 108, 109, 110, 111,
   112, 113, 114, 115, 116, 117, 118, 119, 120, 121, 122, 50, 51, 52, 53, 54, 55]

/-- Unpadded lowercase base-32: the byte string read as a bit string,
split into 5-bit groups (the last group zero-filled on the right), one
alphabet character per group. -/
def base32_encode (bytes : List Nat) : List Nat :=
  let nbits := bytes.length * 8
  let ndigits := (nbits + 4) / 5
  let v := bytesToNat bytes <<< (ndigits * 5 - nbits)
  (List.range ndigits).map
    (fun i => BASE32_ALPHABET.getD ((v >>> ((ndigits - 1 - i) * 5)) % 32) 0)

/-- Modelled from the spec: the § 4.4 canonical content address — a fixed
4-byte multicodec/multihash prefix identifying raw binary, SHA-256 and a
32-byte digest (CIDv1: 0x01 0x55 0x12 0x20) prepended to the hash, the
whole base-32 encoded with a lowercase alphabet and no padding, prefixed
with a fixed single-character multibase tag (98, the character b). -/
def content_address_spec (hash : List Nat) : List Nat :=
  98 :: base32_encode ([0x01, 0x55, 0x12, 0x20] ++ hash)

/-! ### Lemmas about the flat buffer and its structured view. -/

/-- Every hash of a level is 32 bytes long. -/
def All32 (L : List (List Nat)) : Prop := ∀ x ∈ L, x.length = 32

theorem all32_flatten_length {L : List (List Nat)} (h : All32 L) :
    L.flatten.length = 32 * L.length := by
  induction L with
  | nil => simp
  | cons a t ih =>
    have ha : a.length = 32 := h a (List.mem_cons_self a t)
    have ht : All32 t := fun x hx => h x (List.mem_cons_of_mem a hx)
    simp [List.length_append, ha, ih ht, List.length_cons]
    ring

theorem all32_combinePairs : ∀ L : List (List Nat), All32 (combinePairs L)
  | [] => by intro x hx; simp [combinePairs] at hx
  | [_] => by intro x hx; simp [combinePairs] at hx
  | a :: b :: rest => by
    intro x hx
    simp only [combinePairs, List.mem_cons] at hx
    rcases hx with hx | hx
    · rw [hx]; exact sha256_length _
    · exact all32_combinePairs rest x hx

theorem all32_append {L1 L2 : List (List Nat)} (h1 : All32 L1) (h2 : All32 L2) :
    All32 (L1 ++ L2) := by
  intro x hx
  rcases List.mem_append.mp hx with hx | hx
  · exact h1 x hx
  · exact h2 x hx

theorem nodesList_eq_of_le (L : List (List Nat)) (h : L.length ≤ 1) :
    nodesList L = L := by
  rw [nodesList, dif_pos h]

theorem nodesList_eq_of_gt (L : List (List Nat)) (h : ¬ L.length ≤ 1) :
    nodesList L = L ++ nodesList (combinePairs L) := by
  rw [nodesList, dif_neg h]

theorem rootOf_eq_of_le (L : List (List Nat)) (h : L.length ≤ 1) :
    rootOf L = L.headD [] := by
  rw [rootOf, dif_pos h]

theorem rootOf_eq_of_gt (L : List (List Nat)) (h : ¬ L.length ≤ 1) :
    rootOf L = rootOf (combinePairs L) := by
  rw [rootOf, dif_neg h]

theorem all32_nodesList {L : List (List Nat)} (h : All32 L) : All32 (nodesList L) := by
  by_cases hl : L.length ≤ 1
  · rw [nodesList_eq_of_le L hl]; exact h
  · rw [nodesList_eq_of_gt L hl]
    exact all32_append h (all32_nodesList (all32_combinePairs L))
termination_by L.length
decreasing_by
  have hlen := combinePairs_length L
  omega

theorem nodesList_length {L : List (List Nat)} {k : Nat} (h : L.length = 2 ^ k) :
    (nodesList L).length = 2 * L.length - 1 := by
  induction k generalizing L with
  | zero =>
    rw [nodesList_eq_of_le L (by omega)]
    omega
  | succ m ih =>
    have h2 : ¬ L.length ≤ 1 := by
      have : 2 ≤ 2 ^ (m + 1) := by
        have := Nat.one_le_two_pow (n := m)
        calc 2 = 2 * 1 := by ring
        _ ≤ 2 * 2 ^ m := by omega
        _ = 2 ^ (m + 1) := by ring
      omega
    rw [nodesList_eq_of_gt L h2, List.length_append]
    have hc : (combinePairs L).length = 2 ^ m := by
      rw [combinePairs_length, h]
      omega
    rw [ih hc, hc, h]
    have : 1 ≤ 2 ^ m := Nat.one_le_two_pow
    omega

theorem nodesList_getLast {L : List (List Nat)} {k : Nat} (h : L.length = 2 ^ k) :
    (nodesList L).getLast? = some (rootOf L) := by
  induction k generalizing L with
  | zero =>
    simp only [pow_zero] at h
    obtain ⟨a, rfl⟩ := List.length_eq_one.mp h
    rw [nodesList_eq_of_le [a] (by simp), rootOf_eq_of_le [a] (by simp)]
    rfl
  | succ m ih =>
    have h2 : ¬ L.length ≤ 1 := by
      have : 1 ≤ 2 ^ m := Nat.one_le_two_pow
      have hp : 2 ^ (m + 1) = 2 * 2 ^ m := by ring
      omega
    rw [nodesList_eq_of_gt L h2, rootOf_eq_of_gt L h2]
    have hc : (combinePairs L).length = 2 ^ m := by
      rw [combinePairs_length, h]
      omega
    rw [List.getLast?_append, ih hc]; rfl

theorem flatten_drop_last {M : List (List Nat)} (h : All32 M) (a : List Nat)
    (hlast : M.getLast? = some a) :
    M.flatten.drop (M.flatten.length - 32) = a := by
  induction M with
  | nil => simp at hlast
  | cons b t ih =>
    have hb : b.length = 32 := h b (List.mem_cons_self b t)
    have ht : All32 t := fun x hx => h x (List.mem_cons_of_mem b hx)
    cases t with
    | nil =>
      simp only [List.getLast?_singleton, Option.some_inj] at hlast
      subst hlast
      simp [hb]
    | cons c u =>
      have hlast2 : (c :: u).getLast? = some a := by
        rw [List.getLast?_cons_cons] at hlast
        exact hlast
      have hflat : (b :: c :: u).flatten = b ++ (c :: u).flatten := by
        simp [List.flatten_cons]
      have hlen : (c :: u).flatten.length = 32 * (c :: u).length :=
        all32_flatten_length ht
      have h32 : 32 ≤ (c :: u).flatten.length := by
        rw [hlen]
        simp only [List.length_cons]
        omega
      rw [hflat, List.length_append, hb]
      have harith : 32 + (c :: u).flatten.length - 32 =
          b.length + ((c :: u).flatten.length - 32) := by
        rw [hb]; omega
      rw [harith, List.drop_append]
      exact ih ht hlast2

/-- Reading node `fi + p` of a buffer that starts with `32 * fi` bytes of
other levels followed by the flattened level `L`. -/
theorem node_at {L : List (List Nat)} (h : All32 L) :
    ∀ (p : Nat) (suffix : List Nat), p < L.length →
      node (L.flatten ++ suffix) p = L.getD p [] := by
  induction L with
  | nil => intro p _ hp; simp at hp
  | cons a t ih =>
    intro p suffix hp
    have ha : a.length = 32 := h a (List.mem_cons_self a t)
    have ht : All32 t := fun x hx => h x (List.mem_cons_of_mem a hx)
    cases p with
    | zero =>
      simp only [node, HASH_SIZE, Nat.zero_mul, List.drop_zero, List.getD_cons_zero]
      rw [List.flatten_cons, List.append_assoc, List.take_left' ha]
    | succ q =>
      simp only [List.length_cons] at hp
      have hq : q < t.length := by omega
      simp only [node, HASH_SIZE, List.getD_cons_succ]
      rw [List.flatten_cons, List.append_assoc]
      have harith : (q + 1) * 32 = a.length + q * 32 := by rw [ha]; ring
      rw [harith, List.drop_append]
      exact ih ht q suffix hq

/-- Reading a node past a byte prefix of known 32-aligned length. -/
theorem node_append {pre rest : List Nat} {fi : Nat} (hpre : pre.length = fi * 32)
    (p : Nat) : node (pre ++ rest) (fi + p) = node rest p := by
  simp only [node, HASH_SIZE]
  have harith : (fi + p) * 32 = pre.length + p * 32 := by rw [hpre]; ring
  rw [harith, List.drop_append]

/-- One level pass of the builder loop combines exactly the pairs of the
level that starts at node offset `pos` of the buffer. -/
theorem combineRange_eq :
    ∀ (k : Nat) (L : List (List Nat)) (tree rest : List Nat) (pos : Nat),
      L.length = 2 * k → All32 L → tree.drop (pos * HASH_SIZE) = L.flatten ++ rest →
      combineRange tree pos k = (combinePairs L).flatten := by
  intro k
  induction k with
  | zero =>
    intro L tree rest pos hlen _ _
    have : L = [] := List.eq_nil_of_length_eq_zero (by omega)
    subst this
    simp [combineRange, combinePairs]
  | succ m ih =>
    intro L tree rest pos hlen h32 hdrop
    match L, hlen with
    | a :: b :: L2, hl =>
      have ha : a.length = 32 := h32 a (by simp)
      have hb : b.length = 32 := h32 b (by simp)
      have h32b : All32 L2 := fun x hx => h32 x (by simp [hx])
      have hlen2 : L2.length = 2 * m := by
        simp only [List.length_cons] at hl
        omega
      have hdrop2 : tree.drop (pos * 32) = a ++ (b ++ (L2.flatten ++ rest)) := by
        have := hdrop
        simp only [HASH_SIZE] at this
        rw [this]
        simp [List.flatten_cons, List.append_assoc]
      have hnode1 : node tree pos = a := by
        simp only [node, HASH_SIZE]
        rw [hdrop2]
        exact List.take_left' ha
      have hnode2 : node tree (pos + 1) = b := by
        simp only [node, HASH_SIZE]
        have harith : (pos + 1) * 32 = pos * 32 + 32 := by ring
        rw [harith, ← List.drop_drop, hdrop2, List.drop_left' ha]
        exact List.take_left' hb
      have hdrop3 : tree.drop ((pos + 2) * HASH_SIZE) = L2.flatten ++ rest := by
        simp only [HASH_SIZE]
        have harith : (pos + 2) * 32 = pos * 32 + 32 + 32 := by ring
        rw [harith, ← List.drop_drop, ← List.drop_drop, hdrop2, List.drop_left' ha,
          List.drop_left' hb]
      simp only [combineRange, combinePairs, List.flatten_cons]
      rw [hnode1, hnode2, ih L2 tree rest (pos + 2) hlen2 h32b hdrop3]

theorem buildLoopGo_fuel :
    ∀ fuel1 fuel2 (tree : List Nat) (pos num_items : Nat),
      num_items ≤ fuel1 → num_items ≤ fuel2 →
      buildLoopGo fuel1 tree pos num_items = buildLoopGo fuel2 tree pos num_items := by
  intro fuel1
  induction fuel1 with
  | zero =>
    intro fuel2 tree pos num h1 _
    have : num = 0 := by omega
    subst this
    cases fuel2 with
    | zero => rfl
    | succ m => simp [buildLoopGo]
  | succ n ih =>
    intro fuel2 tree pos num h1 h2
    by_cases hnum : num ≤ 1
    · cases fuel2 with
      | zero =>
        have : num = 0 := by omega
        subst this
        simp [buildLoopGo]
      | succ m => simp [buildLoopGo, hnum]
    · cases fuel2 with
      | zero => omega
      | succ m =>
        simp only [buildLoopGo, if_neg hnum]
        exact ih m _ _ _ (by omega) (by omega)

theorem buildLoop_eq (tree : List Nat) (pos num_items : Nat) :
    buildLoop tree pos num_items =
      if num_items ≤ 1 then tree
      else
        buildLoop (tree ++ combineRange tree pos ((num_items + 1) / 2))
          (pos + num_items) (num_items / 2) := by
  by_cases hnum : num_items ≤ 1
  · rw [if_pos hnum]
    interval_cases num_items <;> rfl
  · rw [if_neg hnum]
    simp only [buildLoop]
    have h1 : num_items = (num_items - 1) + 1 := by omega
    rw [h1]
    simp only [buildLoopGo, if_neg (by omega : ¬ (num_items - 1) + 1 ≤ 1)]
    rw [← h1]
    exact buildLoopGo_fuel (num_items - 1) (num_items / 2) _ _ _ (by omega) (by omega)

/-- The level-combination loop turns the flattened leaf level (after any
32-aligned byte prefix) into the flattened list of all tree nodes. -/
theorem buildLoop_nodesList :
    ∀ (k : Nat) (L : List (List Nat)) (pre : List Nat) (pos : Nat),
      L.length = 2 ^ k → All32 L → pre.length = pos * 32 →
      buildLoop (pre ++ L.flatten) pos (2 ^ k) = pre ++ (nodesList L).flatten := by
  intro k
  induction k with
  | zero =>
    intro L pre pos hlen _ _
    rw [buildLoop_eq, if_pos (by norm_num), nodesList_eq_of_le L (by omega)]
  | succ m ih =>
    intro L pre pos hlen h32 hpre
    have hpow : (2 : Nat) ^ (m + 1) = 2 * 2 ^ m := by ring
    have hone : 1 ≤ 2 ^ m := Nat.one_le_two_pow
    have hgt : ¬ (2 : Nat) ^ (m + 1) ≤ 1 := by omega
    rw [buildLoop_eq, if_neg hgt]
    have hdrop : (pre ++ L.flatten).drop (pos * HASH_SIZE) = L.flatten ++ [] := by
      simp only [HASH_SIZE]
      rw [List.drop_left' (by rw [hpre]) , List.append_nil]
    have hcnt : (2 ^ (m + 1) + 1) / 2 = 2 ^ m := by omega
    have hcomb : combineRange (pre ++ L.flatten) pos ((2 ^ (m + 1) + 1) / 2) =
        (combinePairs L).flatten := by
      rw [hcnt]
      exact combineRange_eq (2 ^ m) L _ [] pos (by omega) h32 hdrop
    rw [hcomb]
    have hlenc : (combinePairs L).length = 2 ^ m := by
      rw [combinePairs_length, hlen]
      omega
    have hflatlen : L.flatten.length = 32 * L.length := all32_flatten_length h32
    have hpre2 : (pre ++ L.flatten).length = (pos + 2 ^ (m + 1)) * 32 := by
      rw [List.length_append, hpre, hflatlen, hlen]
      ring
    have hhalf : 2 ^ (m + 1) / 2 = 2 ^ m := by omega
    rw [hhalf]
    rw [ih (combinePairs L) (pre ++ L.flatten) (pos + 2 ^ (m + 1)) hlenc
      (all32_combinePairs L) hpre2]
    rw [nodesList_eq_of_gt L (by omega)]
    simp [List.flatten_append, List.append_assoc]

/-! ### Facts about `next_power_of_two`. -/

theorem np2_pos (n : Nat) : 0 < next_power_of_two n := by
  by_cases h : n ≤ 1
  · simp [next_power_of_two, h]
  · simp only [next_power_of_two, if_neg h]
    exact Nat.pos_pow_of_pos _ (by norm_num)

theorem np2_ge (n : Nat) : n ≤ next_power_of_two n := by
  by_cases h : n ≤ 1
  · simp only [next_power_of_two, if_pos h]
    omega
  · simp only [next_power_of_two, if_neg h]
    rw [log2go_eq _ _ (Nat.le_refl _)]
    have h1 : n - 1 < 2 ^ ((n - 1).log2 + 1) := Nat.lt_log2_self
    omega

theorem np2_is_pow (n : Nat) : ∃ k, next_power_of_two n = 2 ^ k := by
  by_cases h : n ≤ 1
  · exact ⟨0, by simp [next_power_of_two, h]⟩
  · exact ⟨log2go (n - 1) (n - 1) + 1, by simp [next_power_of_two, h]⟩

theorem np2_le_pow {n j : Nat} (h : n ≤ 2 ^ j) : next_power_of_two n ≤ 2 ^ j := by
  by_cases h1 : n ≤ 1
  · simp only [next_power_of_two, if_pos h1]
    exact Nat.one_le_two_pow
  · simp only [next_power_of_two, if_neg h1]
    rw [log2go_eq _ _ (Nat.le_refl _)]
    have hne : n - 1 ≠ 0 := by omega
    have hlt : (n - 1).log2 < j := by
      rw [Nat.log2_lt hne]
      omega
    exact Nat.pow_le_pow_right (by norm_num) (by omega)

/-! ### Chunk counting and the boundary hash. -/

theorem ceil_div_eq (n cs : Nat) (hcs : 0 < cs) :
    (n + cs - 1) / cs = n / cs + (if n % cs = 0 then 0 else 1) := by
  have hmod := Nat.div_add_mod n cs
  have hr : n % cs < cs := Nat.mod_lt _ hcs
  by_cases h : n % cs = 0
  · rw [if_pos h]
    have hn : n = cs * (n / cs) := by omega
    rw [Nat.add_zero]
    conv_lhs => rw [hn]
    have : cs * (n / cs) + cs - 1 = (cs - 1) + (n / cs) * cs := by ring_nf; omega
    rw [this, Nat.add_mul_div_right _ _ hcs, Nat.div_eq_of_lt (by omega)]
    conv_rhs => rw [hn]
    rw [Nat.mul_div_cancel_left _ hcs]
    omega
  · rw [if_neg h]
    have hn : n = cs * (n / cs) + n % cs := by omega
    conv_lhs => rw [hn]
    have : cs * (n / cs) + n % cs + cs - 1 = (n % cs - 1) + (n / cs + 1) * cs := by
      ring_nf
      omega
    rw [this, Nat.add_mul_div_right _ _ hcs, Nat.div_eq_of_lt (by omega)]
    omega

theorem calculate_chunk_size_pos (n : Nat) : 0 < calculate_chunk_size n := by
  simp only [calculate_chunk_size, DEFAULT_CHUNK_SIZE]
  by_cases h : n / 64 < 1024
  · rw [if_pos h]; omega
  · rw [if_neg h]; omega

theorem calculate_pieces_eq_ceil (n : Nat) :
    calculate_pieces n = (n + calculate_chunk_size n - 1) / calculate_chunk_size n := by
  have hcs := calculate_chunk_size_pos n
  rw [ceil_div_eq n _ hcs]
  simp only [calculate_pieces, calculate_has_boundary, bne_iff_ne, ne_eq, ite_not]
  by_cases h : n % calculate_chunk_size n = 0
  · simp [h]
  · simp [h]

theorem chunksOf_length (cs : Nat) (hcs : 0 < cs) :
    ∀ l : List α, (chunksOf cs l).length = (l.length + cs - 1) / cs
  | [] => by
    rw [chunksOf_nil]
    simp only [List.length_nil, Nat.zero_add]
    rw [Nat.div_eq_of_lt (by omega)]
  | a :: t => by
    rw [chunksOf_cons cs hcs, List.length_cons,
      chunksOf_length cs hcs ((a :: t).drop cs)]
    have hd : ((a :: t).drop cs).length = t.length + 1 - cs := by
      rw [List.length_drop, List.length_cons]
    rw [hd]
    simp only [List.length_cons]
    rcases Nat.lt_or_ge t.length cs with hlt | hge
    · have h1 : t.length + 1 - cs = 0 := by omega
      rw [h1]
      rw [Nat.zero_add, Nat.div_eq_of_lt (by omega)]
      have h2 : t.length + 1 + cs - 1 = t.length + 1 * cs := by omega
      rw [h2, Nat.add_mul_div_right _ _ hcs, Nat.div_eq_of_lt (by omega)]
    · have h1 : t.length + 1 - cs + cs - 1 = (t.length - cs) + 1 * cs := by omega
      have h2 : t.length + 1 + cs - 1 = t.length + 1 * cs := by omega
      rw [h1, h2, Nat.add_mul_div_right _ _ hcs, Nat.add_mul_div_right _ _ hcs]
      have h3 : t.length = (t.length - cs) + 1 * cs := by omega
      conv_rhs => rw [h3, Nat.add_mul_div_right _ _ hcs]
termination_by l => l.length
decreasing_by
  simp only [List.length_drop, List.length_cons]
  omega

/-- For any byte list, the number of chunks the builder walks equals the
piece count derived from the file size. -/
theorem chunksOf_length_pieces (l : List Nat) :
    (chunksOf (calculate_chunk_size l.length) l).length = calculate_pieces l.length := by
  rw [chunksOf_length _ (calculate_chunk_size_pos l.length), calculate_pieces_eq_ceil]

theorem chunksOf_all_eq_iff (cs : Nat) (hcs : 0 < cs) :
    ∀ l : List α, (∀ c ∈ chunksOf cs l, c.length = cs) ↔ l.length % cs = 0
  | [] => by
    rw [chunksOf_nil]
    simp
  | a :: t => by
    rw [chunksOf_cons cs hcs]
    have hd : ((a :: t).drop cs).length = t.length + 1 - cs := by
      rw [List.length_drop, List.length_cons]
    by_cases hn : t.length + 1 < cs
    · have hdrop : (a :: t).drop cs = [] := by
        apply List.eq_nil_of_length_eq_zero
        omega
      have htake : ((a :: t).take cs).length = t.length + 1 := by
        rw [List.length_take, List.length_cons]
        omega
      rw [hdrop, chunksOf_nil]
      simp only [List.mem_singleton, forall_eq, htake, List.length_cons]
      constructor
      · intro h
        omega
      · intro h
        rw [Nat.mod_eq_of_lt hn] at h
        omega
    · have htake : ((a :: t).take cs).length = cs := by
        rw [List.length_take, List.length_cons]
        omega
      have hmod : (t.length + 1) % cs = (t.length + 1 - cs) % cs := by
        rw [Nat.mod_eq_sub_mod (by omega)]
      simp only [List.mem_cons, forall_eq_or_imp, htake, true_and, List.length_cons]
      rw [chunksOf_all_eq_iff cs hcs ((a :: t).drop cs), hd, hmod]
termination_by l => l.length
decreasing_by
  simp only [List.length_drop, List.length_cons]
  omega

theorem boundaryFold_acc (cs : Nat) (chunks : List (List Nat)) :
    ∀ acc : Option (List Nat),
      chunks.foldl
        (fun acc chunk => if chunk.length ≠ cs then some (sha256 chunk) else acc) acc =
          none ↔
        acc = none ∧ ∀ c ∈ chunks, c.length = cs := by
  induction chunks with
  | nil => simp
  | cons c rest ih =>
    intro acc
    simp only [List.foldl_cons, ih, List.mem_cons, forall_eq_or_imp]
    by_cases h : c.length = cs
    · simp [h]
    · simp only [if_pos (by exact h : c.length ≠ cs)]
      constructor
      · intro ⟨hsome, _⟩
        exact absurd hsome (by simp)
      · intro ⟨_, hc, _⟩
        exact absurd hc h

theorem boundaryFold_none_iff (cs : Nat) (chunks : List (List Nat)) :
    boundaryFold cs chunks = none ↔ ∀ c ∈ chunks, c.length = cs := by
  rw [boundaryFold, boundaryFold_acc]
  simp

/-- The boundary hash of a constructed tree is present exactly when the
file size is not an exact multiple of the chunk size. -/
theorem boundaryFold_isSome_iff (l : List Nat) :
    (boundaryFold (calculate_chunk_size l.length)
        (chunksOf (calculate_chunk_size l.length) l)).isSome = true ↔
      l.length % calculate_chunk_size l.length ≠ 0 := by
  rw [Option.isSome_iff_ne_none, ne_eq, boundaryFold_none_iff,
    chunksOf_all_eq_iff _ (calculate_chunk_size_pos l.length)]

/-! ### The leaf level of a constructed tree. -/

theorem leaf_level_length (f : List Nat) :
    (leaf_level f).length =
      next_power_of_two (chunksOf (calculate_chunk_size f.length) f).length := by
  simp only [leaf_level, List.length_append, List.length_map, List.length_replicate]
  have := np2_ge (chunksOf (calculate_chunk_size f.length) f).length
  omega

theorem all32_leaf_level (f : List Nat) : All32 (leaf_level f) := by
  intro x hx
  simp only [leaf_level, List.mem_append, List.mem_map, List.mem_replicate] at hx
  rcases hx with ⟨c, _, rfl⟩ | ⟨_, rfl⟩
  · simp only [chunkLeaf]
    by_cases h : c.length ≠ calculate_chunk_size f.length
    · rw [if_pos h]; exact sha256_length _
    · rw [if_neg h]; exact sha256_length _
  · simp [CHUNK_FILLER]

theorem nodesList_flatten_length {L : List (List Nat)} {k : Nat}
    (hlen : L.length = 2 ^ k) (h32 : All32 L) :
    (nodesList L).flatten.length = 32 * (2 * L.length - 1) := by
  rw [all32_flatten_length (all32_nodesList h32), nodesList_length hlen]

/-- Closed-form characterization of `FileMerkleTree::new`: the buffer is
the flattened node list over the padded leaf level, and construction
panics exactly when that buffer exceeds the bounded capacity. -/
theorem new_eq (f : List Nat) :
    FileMerkleTree.new f =
      if (nodesList (leaf_level f)).flatten.length ≤ MAX_MERKLE_TREE_SIZE then
        some
          { merkle_tree := (nodesList (leaf_level f)).flatten,
            file_size := f.length,
            boundary_hash :=
              boundaryFold (calculate_chunk_size f.length)
                (chunksOf (calculate_chunk_size f.length) f) }
      else none := by
  obtain ⟨k, hk⟩ := np2_is_pow (chunksOf (calculate_chunk_size f.length) f).length
  have hlev : (leaf_level f).length = 2 ^ k := by rw [leaf_level_length, hk]
  have hflat :
      (chunksOf (calculate_chunk_size f.length) f |>.map
          (chunkLeaf (calculate_chunk_size f.length))).flatten ++
        (List.replicate
          (next_power_of_two (chunksOf (calculate_chunk_size f.length) f).length -
            (chunksOf (calculate_chunk_size f.length) f).length) CHUNK_FILLER).flatten =
      (leaf_level f).flatten := by
    rw [← List.flatten_append]
    rfl
  have hbuild :
      buildLoop ((leaf_level f).flatten) 0
          (next_power_of_two (chunksOf (calculate_chunk_size f.length) f).length) =
        (nodesList (leaf_level f)).flatten := by
    rw [hk]
    have := buildLoop_nodesList k (leaf_level f) [] 0 hlev (all32_leaf_level f) (by simp)
    simpa using this
  simp only [FileMerkleTree.new]
  rw [hflat, hbuild]

/-! ### Proof-path lemmas: the flat recursion of `find_proof` against the
per-level description, and the § 4.3 verification round trip. -/

theorem find_proofGo_fuel :
    ∀ fuel1 fuel2 (tree : List Nat) (position fi base : Nat),
      base ≤ fuel1 → base ≤ fuel2 →
      find_proofGo fuel1 tree position fi base = find_proofGo fuel2 tree position fi base := by
  intro fuel1
  induction fuel1 with
  | zero =>
    intro fuel2 tree position fi base h1 _
    have : base = 0 := by omega
    subst this
    cases fuel2 with
    | zero => rfl
    | succ m => simp [find_proofGo]
  | succ n ih =>
    intro fuel2 tree position fi base h1 h2
    by_cases hb : base ≤ 1
    · cases fuel2 with
      | zero =>
        have : base = 0 := by omega
        subst this
        simp [find_proofGo]
      | succ m => simp [find_proofGo, hb]
    · cases fuel2 with
      | zero => omega
      | succ m =>
        simp only [find_proofGo, if_neg hb]
        rw [ih m _ _ _ _ (by omega) (by omega)]

theorem find_proof_eq (tree : List Nat) (position fi base : Nat) :
    find_proof tree position fi base =
      if base ≤ 1 then []
      else
        node tree (if position % 2 = 0 then position + 1 else position - 1) ::
          find_proof tree ((position - fi) / 2 + fi + base) (fi + base) (base / 2) := by
  by_cases hb : base ≤ 1
  · rw [if_pos hb]
    interval_cases base <;> rfl
  · rw [if_neg hb]
    simp only [find_proof]
    have h1 : base = (base - 1) + 1 := by omega
    conv_lhs => rw [h1]
    simp only [find_proofGo, if_neg (by omega : ¬ (base - 1) + 1 ≤ 1)]
    rw [← h1]
    rw [find_proofGo_fuel (base - 1) (base / 2) _ _ _ _ (by omega) (by omega)]

theorem find_proof_boundsGo_fuel :
    ∀ fuel1 fuel2 (tree : List Nat) (position fi base : Nat),
      base ≤ fuel1 → base ≤ fuel2 →
      find_proof_boundsGo fuel1 tree position fi base =
        find_proof_boundsGo fuel2 tree position fi base := by
  intro fuel1
  induction fuel1 with
  | zero =>
    intro fuel2 tree position fi base h1 _
    have : base = 0 := by omega
    subst this
    cases fuel2 with
    | zero => rfl
    | succ m => simp [find_proof_boundsGo]
  | succ n ih =>
    intro fuel2 tree position fi base h1 h2
    by_cases hb : base ≤ 1
    · cases fuel2 with
      | zero =>
        have : base = 0 := by omega
        subst this
        simp [find_proof_boundsGo]
      | succ m => simp [find_proof_boundsGo, hb]
    · cases fuel2 with
      | zero => omega
      | succ m =>
        simp only [find_proof_boundsGo, if_neg hb]
        rw [ih m _ _ _ _ (by omega) (by omega)]

theorem find_proof_in_bounds_eq (tree : List Nat) (position fi base : Nat) :
    find_proof_in_bounds tree position fi base =
      if base ≤ 1 then true
      else
        (decide (((if position % 2 = 0 then position + 1 else position - 1) + 1) *
            HASH_SIZE ≤ tree.length) &&
          decide (fi ≤ position) &&
          find_proof_in_bounds tree ((position - fi) / 2 + fi + base) (fi + base)
            (base / 2)) := by
  by_cases hb : base ≤ 1
  · rw [if_pos hb]
    interval_cases base <;> rfl
  · rw [if_neg hb]
    simp only [find_proof_in_bounds]
    have h1 : base = (base - 1) + 1 := by omega
    conv_lhs => rw [h1]
    simp only [find_proof_boundsGo, if_neg (by omega : ¬ (base - 1) + 1 ≤ 1)]
    rw [← h1]
    rw [find_proof_boundsGo_fuel (base - 1) (base / 2) _ _ _ _ (by omega) (by omega)]

theorem proof_specGo_fuel :
    ∀ fuel1 fuel2 (level : List (List Nat)) (p : Nat),
      level.length ≤ fuel1 → level.length ≤ fuel2 →
      proof_specGo fuel1 level p = proof_specGo fuel2 level p := by
  intro fuel1
  induction fuel1 with
  | zero =>
    intro fuel2 level p h1 _
    have : level = [] := List.eq_nil_of_length_eq_zero (by omega)
    subst this
    cases fuel2 with
    | zero => rfl
    | succ m => simp [proof_specGo]
  | succ n ih =>
    intro fuel2 level p h1 h2
    by_cases hb : level.length ≤ 1
    · cases fuel2 with
      | zero =>
        have : level = [] := List.eq_nil_of_length_eq_zero (by omega)
        subst this
        simp [proof_specGo]
      | succ m => simp [proof_specGo, hb]
    · cases fuel2 with
      | zero => omega
      | succ m =>
        simp only [proof_specGo, if_neg hb]
        have hc := combinePairs_length level
        rw [ih m _ _ (by omega) (by omega)]

theorem proof_spec_eq (level : List (List Nat)) (p : Nat) :
    proof_spec level p =
      if level.length ≤ 1 then []
      else
        level.getD (if p % 2 = 0 then p + 1 else p - 1) [] ::
          proof_spec (combinePairs level) (p / 2) := by
  by_cases hb : level.length ≤ 1
  · rw [if_pos hb]
    simp only [proof_spec]
    cases level with
    | nil => rfl
    | cons a t =>
      have ht : t.length = 0 := by
        simp only [List.length_cons] at hb
        omega
      have : t = [] := List.eq_nil_of_length_eq_zero ht
      subst this
      simp [proof_specGo]
  · rw [if_neg hb]
    simp only [proof_spec]
    have h1 : level.length = (level.length - 1) + 1 := by omega
    conv_lhs => rw [h1]
    simp only [proof_specGo, if_neg hb]
    have hc := combinePairs_length level
    rw [proof_specGo_fuel (level.length - 1) (combinePairs level).length _ _ (by omega)
      (by omega)]

/-- The flat recursion of `find_proof` over the buffer produces exactly
the per-level sibling path: the key invariants are that the byte prefix
before the current level is 32-aligned and that the level base offset
`fi` is even, so the parity of the absolute index agrees with the parity
of the level-local index. -/
theorem find_proof_eq_spec :
    ∀ (k : Nat) (L : List (List Nat)) (pre : List Nat) (fi p : Nat),
      L.length = 2 ^ k → All32 L → p < L.length → pre.length = fi * 32 → fi % 2 = 0 →
      find_proof (pre ++ (nodesList L).flatten) (fi + p) fi (2 ^ k) = proof_spec L p := by
  intro k
  induction k with
  | zero =>
    intro L pre fi p hlen _ hp _ _
    rw [find_proof_eq, if_pos (by norm_num), proof_spec_eq, if_pos (by omega)]
  | succ m ih =>
    intro L pre fi p hlen h32 hp hpre hfi
    have hone : 1 ≤ 2 ^ m := Nat.one_le_two_pow
    have hpow : (2 : Nat) ^ (m + 1) = 2 * 2 ^ m := by ring
    have hL2 : ¬ L.length ≤ 1 := by omega
    have hnodes : (nodesList L).flatten = L.flatten ++ (nodesList (combinePairs L)).flatten := by
      rw [nodesList_eq_of_gt L hL2, List.flatten_append]
    have hparity : (fi + p) % 2 = p % 2 := by omega
    have hsib :
        (if (fi + p) % 2 = 0 then fi + p + 1 else fi + p - 1) =
          fi + (if p % 2 = 0 then p + 1 else p - 1) := by
      rw [hparity]
      by_cases hpar : p % 2 = 0
      · simp only [if_pos hpar]
        omega
      · simp only [if_neg hpar]
        omega
    have hsibrange : (if p % 2 = 0 then p + 1 else p - 1) < L.length := by
      by_cases hpar : p % 2 = 0
      · simp only [if_pos hpar]
        omega
      · simp only [if_neg hpar]
        omega
    have hnode :
        node (pre ++ (nodesList L).flatten)
            (fi + (if p % 2 = 0 then p + 1 else p - 1)) =
          L.getD (if p % 2 = 0 then p + 1 else p - 1) [] := by
      rw [node_append hpre, hnodes, node_at h32 _ _ hsibrange]
    have hparent : (fi + p - fi) / 2 + fi + 2 ^ (m + 1) =
        (fi + 2 ^ (m + 1)) + p / 2 := by omega
    have hprelen : (pre ++ L.flatten).length = (fi + 2 ^ (m + 1)) * 32 := by
      rw [List.length_append, hpre, all32_flatten_length h32, hlen]
      ring
    have hfieven : (fi + 2 ^ (m + 1)) % 2 = 0 := by
      have : (2 : Nat) ^ (m + 1) % 2 = 0 := by omega
      omega
    have hclen : (combinePairs L).length = 2 ^ m := by
      rw [combinePairs_length, hlen]
      omega
    have hp2 : p / 2 < (combinePairs L).length := by
      rw [hclen]
      omega
    rw [find_proof_eq, if_neg (by omega : ¬ 2 ^ (m + 1) ≤ 1)]
    rw [proof_spec_eq, if_neg hL2]
    rw [hsib, hnode, hparent]
    have hhalf : 2 ^ (m + 1) / 2 = 2 ^ m := by omega
    rw [hhalf]
    congr 1
    have := ih (combinePairs L) (pre ++ L.flatten) (fi + 2 ^ (m + 1)) (p / 2) hclen
      (all32_combinePairs L) hp2 hprelen hfieven
    rw [← this, hnodes, ← List.append_assoc]

theorem proof_spec_length :
    ∀ (k : Nat) (L : List (List Nat)) (p : Nat), L.length = 2 ^ k →
      (proof_spec L p).length = k := by
  intro k
  induction k with
  | zero =>
    intro L p hlen
    rw [proof_spec_eq, if_pos (by omega)]
    rfl
  | succ m ih =>
    intro L p hlen
    have hone : 1 ≤ 2 ^ m := Nat.one_le_two_pow
    have hpow : (2 : Nat) ^ (m + 1) = 2 * 2 ^ m := by ring
    rw [proof_spec_eq, if_neg (by omega), List.length_cons]
    rw [ih (combinePairs L) (p / 2) (by rw [combinePairs_length, hlen]; omega)]

theorem proof_spec_all32 :
    ∀ (k : Nat) (L : List (List Nat)) (p : Nat), L.length = 2 ^ k → All32 L →
      p < L.length → ∀ x ∈ proof_spec L p, x.length = 32 := by
  intro k
  induction k with
  | zero =>
    intro L p hlen _ _ x hx
    rw [proof_spec_eq, if_pos (by omega)] at hx
    simp at hx
  | succ m ih =>
    intro L p hlen h32 hp x hx
    have hone : 1 ≤ 2 ^ m := Nat.one_le_two_pow
    have hpow : (2 : Nat) ^ (m + 1) = 2 * 2 ^ m := by ring
    rw [proof_spec_eq, if_neg (by omega)] at hx
    rcases List.mem_cons.mp hx with hx | hx
    · have hsibrange : (if p % 2 = 0 then p + 1 else p - 1) < L.length := by
        by_cases hpar : p % 2 = 0
        · simp only [if_pos hpar]; omega
        · simp only [if_neg hpar]; omega
      rw [hx, List.getD_eq_getElem L [] hsibrange]
      exact h32 _ (List.getElem_mem hsibrange)
    · exact ih (combinePairs L) (p / 2)
        (by rw [combinePairs_length, hlen]; omega) (all32_combinePairs L)
        (by rw [combinePairs_length, hlen]; omega) x hx

theorem combinePairs_getD :
    ∀ (L : List (List Nat)) (j : Nat), 2 * j + 1 < L.length →
      (combinePairs L).getD j [] = sha256 (L.getD (2 * j) [] ++ L.getD (2 * j + 1) [])
  | [], j, h => by simp at h
  | [_], j, h => by
    simp only [List.length_cons, List.length_nil] at h
    omega
  | a :: b :: rest, 0, _ => by simp [combinePairs]
  | a :: b :: rest, j + 1, h => by
    simp only [List.length_cons] at h
    have hrec := combinePairs_getD rest j (by omega)
    simp only [combinePairs]
    have h1 : 2 * (j + 1) = 2 * j + 1 + 1 := by ring
    rw [h1]
    simp only [List.getD_cons_succ]
    exact hrec

/-- The § 4.3 recomputation over the per-level sibling path rebuilds the
root of the level. -/
theorem verifyGo_spec :
    ∀ (k : Nat) (L : List (List Nat)) (p : Nat), L.length = 2 ^ k → p < L.length →
      verifyGo (L.getD p []) p (proof_spec L p) = rootOf L := by
  intro k
  induction k with
  | zero =>
    intro L p hlen hp
    rw [proof_spec_eq, if_pos (by omega)]
    have hp0 : p = 0 := by omega
    subst hp0
    obtain ⟨a, rfl⟩ := List.length_eq_one.mp (by simpa using hlen)
    rw [rootOf_eq_of_le [a] (by simp)]
    rfl
  | succ m ih =>
    intro L p hlen hp
    have hone : 1 ≤ 2 ^ m := Nat.one_le_two_pow
    have hpow : (2 : Nat) ^ (m + 1) = 2 * 2 ^ m := by ring
    have hL2 : ¬ L.length ≤ 1 := by omega
    rw [proof_spec_eq, if_neg hL2]
    simp only [verifyGo]
    have hclen : (combinePairs L).length = 2 ^ m := by
      rw [combinePairs_length, hlen]
      omega
    have hp2 : p / 2 < (combinePairs L).length := by
      rw [hclen]
      omega
    have hpair :
        sha256 (if p % 2 = 0 then
            L.getD p [] ++ L.getD (if p % 2 = 0 then p + 1 else p - 1) []
          else L.getD (if p % 2 = 0 then p + 1 else p - 1) [] ++ L.getD p []) =
          (combinePairs L).getD (p / 2) [] := by
      by_cases hpar : p % 2 = 0
      · simp only [if_pos hpar]
        rw [combinePairs_getD L (p / 2) (by omega)]
        have e1 : 2 * (p / 2) = p := by omega
        have e2 : 2 * (p / 2) + 1 = p + 1 := by omega
        rw [e2, e1]
      · simp only [if_neg hpar]
        rw [combinePairs_getD L (p / 2) (by omega)]
        have e1 : 2 * (p / 2) = p - 1 := by omega
        have e2 : 2 * (p / 2) + 1 = p := by omega
        rw [e2, e1]
    rw [hpair, ih (combinePairs L) (p / 2) hclen hp2, rootOf_eq_of_gt L hL2]

/-! ### Facts about trees returned by `FileMerkleTree::new`. -/

theorem new_some {f : List Nat} {t : FileMerkleTree} (h : FileMerkleTree.new f = some t) :
    t.merkle_tree = (nodesList (leaf_level f)).flatten ∧
      t.file_size = f.length ∧
      t.boundary_hash =
        boundaryFold (calculate_chunk_size f.length)
          (chunksOf (calculate_chunk_size f.length) f) ∧
      (nodesList (leaf_level f)).flatten.length ≤ MAX_MERKLE_TREE_SIZE := by
  rw [new_eq] at h
  by_cases hc : (nodesList (leaf_level f)).flatten.length ≤ MAX_MERKLE_TREE_SIZE
  · rw [if_pos hc] at h
    injection h with h
    rw [← h]
    exact ⟨rfl, rfl, rfl, hc⟩
  · rw [if_neg hc] at h
    cases h

theorem new_pieces {f : List Nat} {t : FileMerkleTree} (h : FileMerkleTree.new f = some t) :
    t.pieces = (chunksOf (calculate_chunk_size f.length) f).length := by
  rw [FileMerkleTree.pieces, (new_some h).2.1, chunksOf_length_pieces]

theorem pieces_le_leaf_level (f : List Nat) :
    calculate_pieces f.length ≤ (leaf_level f).length := by
  rw [leaf_level_length, ← chunksOf_length_pieces]
  exact np2_ge _

/-- The merkle root of a constructed tree is the pairwise-combined root of
its padded leaf level. -/
theorem merkle_root_of_new {f : List Nat} {t : FileMerkleTree}
    (h : FileMerkleTree.new f = some t) : t.merkle_root = rootOf (leaf_level f) := by
  obtain ⟨k, hk⟩ := np2_is_pow (chunksOf (calculate_chunk_size f.length) f).length
  have hlev : (leaf_level f).length = 2 ^ k := by rw [leaf_level_length, hk]
  have h32 := all32_nodesList (all32_leaf_level f)
  rw [FileMerkleTree.merkle_root, (new_some h).1]
  simp only [HASH_SIZE]
  exact flatten_drop_last h32 _ (nodesList_getLast hlev)

/-- The leaf slice taken by `file_chunk_hash_at` is the corresponding
entry of the padded leaf level. -/
theorem merkle_tree_slice {f : List Nat} {t : FileMerkleTree}
    (h : FileMerkleTree.new f = some t) (p : Nat) (hp : p < (leaf_level f).length) :
    (t.merkle_tree.drop (p * HASH_SIZE)).take HASH_SIZE = (leaf_level f).getD p [] := by
  obtain ⟨k, hk⟩ := np2_is_pow (chunksOf (calculate_chunk_size f.length) f).length
  have hlev : (leaf_level f).length = 2 ^ k := by rw [leaf_level_length, hk]
  have hL2 := all32_leaf_level f
  rw [(new_some h).1]
  by_cases hone : (leaf_level f).length ≤ 1
  · rw [nodesList_eq_of_le _ hone]
    have : node ((leaf_level f).flatten ++ []) p = (leaf_level f).getD p [] :=
      node_at hL2 p [] hp
    simpa [node] using this
  · rw [nodesList_eq_of_gt _ hone, List.flatten_append]
    have : node ((leaf_level f).flatten ++ (nodesList (combinePairs (leaf_level f))).flatten) p =
        (leaf_level f).getD p [] := node_at hL2 p _ hp
    simpa [node] using this

/-- A present boundary hash of a constructed tree is a SHA-256 digest, so
32 bytes long. -/
theorem boundaryFold_some_length (cs : Nat) (chunks : List (List Nat)) :
    ∀ (acc : Option (List Nat)) (b : List Nat),
      (∀ x, acc = some x → x.length = 32) →
      chunks.foldl
        (fun acc chunk => if chunk.length ≠ cs then some (sha256 chunk) else acc) acc =
          some b →
      b.length = 32 := by
  induction chunks with
  | nil =>
    intro acc b hacc h
    exact hacc b h
  | cons c rest ih =>
    intro acc b hacc h
    simp only [List.foldl_cons] at h
    by_cases hc : c.length ≠ cs
    · refine ih _ b ?_ h
      intro x hx
      rw [if_pos hc] at hx
      injection hx with hx
      rw [← hx]
      exact sha256_length c
    · refine ih _ b ?_ h
      intro x hx
      rw [if_neg hc] at hx
      exact hacc x hx

/-! ### C3: the derived piece count. -/

/-- C3 counterexample: at file size 65537 the derived piece count is 65,
contradicting the claimed bound of 64. -/
theorem C3_counterexample : 64 < calculate_pieces 65537 := by decide

/-- C3 (amended): for every file size the derived piece count
`calculate_pieces` is at most 65 (not 64: just above 65536 bytes the
floor division chunk size leaves a remainder chunk that pushes the count
to 65). -/
theorem C3_amended (n : Nat) : calculate_pieces n ≤ 65 := by
  by_cases h : n / 64 < 1024
  · have hcs : calculate_chunk_size n = 1024 := by
      simp [calculate_chunk_size, DEFAULT_CHUNK_SIZE, h]
    simp only [calculate_pieces, hcs, calculate_has_boundary]
    have hub : n < 65536 := by omega
    by_cases hb : n % 1024 = 0
    · simp only [hb]
      norm_num
      omega
    · have : (n % 1024 != 0) = true := by simpa using hb
      simp only [this, if_pos]
      omega
  · have hcs : calculate_chunk_size n = n / 64 := by
      simp [calculate_chunk_size, DEFAULT_CHUNK_SIZE, h]
    have hq : 1024 ≤ n / 64 := by omega
    have hqpos : 0 < n / 64 := by omega
    have hbound : n < 65 * (n / 64) := by omega
    have hdiv : n / (n / 64) < 65 := by
      rw [Nat.div_lt_iff_lt_mul hqpos]
      omega
    simp only [calculate_pieces, hcs, calculate_has_boundary]
    by_cases hb : n % (n / 64) = 0
    · simp only [hb]
      norm_num
      omega
    · have : (n % (n / 64) != 0) = true := by simpa using hb
      simp only [this, if_pos]
      omega

/-! ### C4: successful construction and the buffer-length invariant. -/

/-- C4 counterexample: a non-empty file of 33792 zero bytes has 33 pieces
(at most 64 as the claim requires), yet `FileMerkleTree::new` fails — the
buffer would need `32 * (2 * 64 - 1) = 4064` bytes, above the
`MAX_MERKLE_TREE_SIZE = 2048` capacity, so the bounded-vector conversion
panics. -/
theorem C4_counterexample :
    List.replicate 33792 (0 : Nat) ≠ [] ∧
      calculate_pieces (List.replicate 33792 (0 : Nat)).length ≤ 64 ∧
      FileMerkleTree.new (List.replicate 33792 0) = none := by
  have hlen : (List.replicate 33792 (0 : Nat)).length = 33792 := List.length_replicate _ _
  refine ⟨?_, by rw [hlen]; decide, ?_⟩
  · intro hcon
    have h0 := congrArg List.length hcon
    rw [hlen] at h0
    simp at h0
  have hchunks :
      (chunksOf (calculate_chunk_size (List.replicate 33792 (0 : Nat)).length)
        (List.replicate 33792 (0 : Nat))).length = 33 := by
    rw [chunksOf_length_pieces, hlen]
    decide
  have hlev : (leaf_level (List.replicate 33792 (0 : Nat))).length = 2 ^ 6 := by
    rw [leaf_level_length, hchunks]
    decide
  have hflat :
      (nodesList (leaf_level (List.replicate 33792 (0 : Nat)))).flatten.length = 4064 := by
    rw [nodesList_flatten_length hlev (all32_leaf_level _), hlev]
    decide
  rw [new_eq, if_neg (by rw [hflat]; decide)]

/-- C4 (amended): the claim holds once the piece bound is tightened from
64 to 32 — the `BoundedVec` capacity is `MAX_MERKLE_TREE_SIZE = 2048`
bytes, which fits the `2 * leaves - 1` nodes only while
`leaves = next_power_of_two(pieces) ≤ 32`.  For every non-empty file with
at most 32 pieces, `new` succeeds, the buffer length is exactly
`32 * (2 * next_power_of_two(pieces) - 1)`, and `merkle_root()` is the
(full 32-byte) suffix of the buffer starting 32 bytes before its end. -/
theorem C4_amended (f : List Nat) (hne : f ≠ [])
    (hp : calculate_pieces f.length ≤ 32) :
    ∃ t, FileMerkleTree.new f = some t ∧
      t.merkle_tree.length =
        32 * (2 * next_power_of_two (calculate_pieces f.length) - 1) ∧
      t.merkle_root.length = 32 ∧
      t.merkle_root = t.merkle_tree.drop (t.merkle_tree.length - 32) := by
  obtain ⟨k, hk⟩ := np2_is_pow (chunksOf (calculate_chunk_size f.length) f).length
  have hlev : (leaf_level f).length = 2 ^ k := by rw [leaf_level_length, hk]
  have hnp2 : next_power_of_two (calculate_pieces f.length) ≤ 32 :=
    np2_le_pow (j := 5) (by omega)
  have hlevle : (leaf_level f).length ≤ 32 := by
    rw [leaf_level_length, chunksOf_length_pieces]
    exact hnp2
  have hlevpos : 0 < (leaf_level f).length := by
    rw [hlev]
    exact Nat.pos_pow_of_pos _ (by norm_num)
  have hflat : (nodesList (leaf_level f)).flatten.length =
      32 * (2 * (leaf_level f).length - 1) :=
    nodesList_flatten_length hlev (all32_leaf_level f)
  have hsize : (nodesList (leaf_level f)).flatten.length ≤ MAX_MERKLE_TREE_SIZE := by
    rw [hflat]
    simp only [MAX_MERKLE_TREE_SIZE, MAX_MERKLE_TREE_NODES, HASH_SIZE]
    omega
  refine ⟨_, by rw [new_eq, if_pos hsize], ?_, ?_, ?_⟩
  · simp only [hflat]
    rw [leaf_level_length, chunksOf_length_pieces]
  · simp only [FileMerkleTree.merkle_root, HASH_SIZE, List.length_drop]
    simp only [hflat]
    omega
  · simp [FileMerkleTree.merkle_root, HASH_SIZE]

/-! ### C6: construction on the empty input. -/

/-- C6 counterexample: `FileMerkleTree::new` applied to the empty byte
sequence does not fail. -/
theorem C6_counterexample : FileMerkleTree.new [] ≠ none := by decide

/-- C6 (amended): on the empty input (`pieces == 0`) construction does
not fail at all — the source has no error path — and instead returns the
degenerate tree with `file_size = 0`, no boundary hash, and a
`merkle_tree` of 32 zero bytes (one all-zero filler leaf, no hashing
performed). -/
theorem C6_amended :
    FileMerkleTree.new [] =
      some { merkle_tree := List.replicate 32 0, file_size := 0, boundary_hash := none } := by
  decide

/-- C4 witness: the single-chunk 1024-byte zero file builds successfully
with a 32-byte buffer (one leaf, `32 * (2 * 1 - 1)`). -/
theorem C4_witness :
    ((FileMerkleTree.new (List.replicate 1024 0)).map fun t => t.merkle_tree.length) =
      some 32 := by
  obtain ⟨t, hsome, hlen, _, _⟩ := C4_amended (List.replicate 1024 0)
    (by simp) (by rw [List.length_replicate]; decide)
  rw [hsome]
  simp only [Option.map_some']
  rw [hlen, List.length_replicate,
    show calculate_pieces 1024 = 1 from by decide,
    show next_power_of_two 1 = 1 from by decide]

/-! ### Concrete SHA-256 digests used by counterexamples.  The digest of
1024 zero bytes is established block by block so that no single kernel
reduction is deeper than eight compression rounds of 64 rounds each. -/

theorem chunksOf_expand (cs : Nat) (hcs : 0 < cs) (l : List α) (hne : l ≠ []) :
    chunksOf cs l = l.take cs :: chunksOf cs (l.drop cs) := by
  cases l with
  | nil => exact absurd rfl hne
  | cons a t => exact chunksOf_cons cs hcs a t

theorem chunksOf_replicate_append (cs : Nat) (hcs : 0 < cs) (x : α) :
    ∀ (k : Nat) (rest : List α),
      chunksOf cs (List.replicate (cs * k) x ++ rest) =
        List.replicate k (List.replicate cs x) ++ chunksOf cs rest := by
  intro k
  induction k with
  | zero => intro rest; simp
  | succ m ih =>
    intro rest
    have hsplit : List.replicate (cs * (m + 1)) x =
        List.replicate cs x ++ List.replicate (cs * m) x := by
      rw [← List.replicate_add]
      congr 1
      ring
    rw [hsplit, List.append_assoc]
    have hne : List.replicate cs x ++ (List.replicate (cs * m) x ++ rest) ≠ [] := by
      intro hcon
      have hlen := congrArg List.length hcon
      simp only [List.length_append, List.length_replicate, List.length_nil] at hlen
      omega
    rw [chunksOf_expand cs hcs _ hne]
    rw [List.take_left' (by simp), List.drop_left' (by simp), ih]
    rfl

theorem pad_rep1024 :
    sha256pad (List.replicate 1024 (0 : Nat)) =
      List.replicate (64 * 16) 0 ++
        ([128] ++ List.replicate 55 0 ++ [0, 0, 0, 0, 0, 0, 32, 0]) := by
  simp only [sha256pad, List.length_replicate]
  have hk : (64 - (1024 + 9) % 64) % 64 = 55 := by decide
  have hbe : toBE8 (1024 * 8) = [0, 0, 0, 0, 0, 0, 32, 0] := by decide
  rw [hk, hbe]
  have hrep : List.replicate (64 * 16) (0 : Nat) = List.replicate 1024 0 := by norm_num
  rw [hrep]
  simp [List.append_assoc]

theorem blocks_rep1024 :
    chunksOf 64 (sha256pad (List.replicate 1024 (0 : Nat))) =
      List.replicate 16 (List.replicate 64 0) ++
        [[128] ++ List.replicate 55 0 ++ [0, 0, 0, 0, 0, 0, 32, 0]] := by
  rw [pad_rep1024, chunksOf_replicate_append 64 (by norm_num) 0 16]
  congr 1

theorem fold8a :
    List.foldl compressBlock shaInit (List.replicate 8 (List.replicate 64 0)) =
      ⟨218121175, 1626103620, 814375548, 715816623,
        3701290803, 3159480871, 2470316789, 1090889717⟩ := by
  decide

theorem fold8b :
    List.foldl compressBlock
        ⟨218121175, 1626103620, 814375548, 715816623,
          3701290803, 3159480871, 2470316789, 1090889717⟩
        (List.replicate 8 (List.replicate 64 0)) =
      ⟨2482666008, 3411149588, 148021073, 283388902,
        4232710110, 1292788994, 1364642173, 1927301839⟩ := by
  decide

theorem fold_last :
    compressBlock
        ⟨2482666008, 3411149588, 148021073, 283388902,
          4232710110, 1292788994, 1364642173, 1927301839⟩
        ([128] ++ List.replicate 55 0 ++ [0, 0, 0, 0, 0, 0, 32, 0]) =
      ⟨1601224472, 2693136496, 384387248, 1257061250,
        272250558, 2752992694, 3453988624, 2900608751⟩ := by
  decide

/-- The SHA-256 digest of 1024 zero bytes: the tree leaf value of every
all-zero full chunk and of the zero-padded single-byte chunk. -/
theorem sha256_rep1024 :
    sha256 (List.replicate 1024 (0 : Nat)) =
      [95, 112, 191, 24, 160, 134, 0, 112, 22, 233, 72, 176, 74, 237, 59, 130,
       16, 58, 54, 190, 164, 23, 85, 182, 205, 223, 175, 16, 172, 227, 198, 239] := by
  simp only [sha256]
  rw [blocks_rep1024]
  rw [List.foldl_append]
  rw [show (16 : Nat) = 8 + 8 from rfl, List.replicate_add, List.foldl_append, fold8a, fold8b]
  simp only [List.foldl_cons, List.foldl_nil]
  rw [fold_last]
  decide

theorem sha256_single_zero :
    sha256 [0] =
      [110, 52, 11, 156, 255, 179, 122, 152, 156, 165, 68, 230, 187, 120, 10, 44,
       120, 144, 29, 63, 179, 55, 56, 118, 133, 17, 163, 6, 23, 175, 160, 29] := by
  decide

/-! ### Construction of the concrete trees used by witnesses. -/

/-- Whenever the derived piece count is at most 32, construction succeeds
and yields the characterized tree. -/
theorem new_some_of_pieces_le (f : List Nat) (hp : calculate_pieces f.length ≤ 32) :
    FileMerkleTree.new f =
      some
        { merkle_tree := (nodesList (leaf_level f)).flatten,
          file_size := f.length,
          boundary_hash :=
            boundaryFold (calculate_chunk_size f.length)
              (chunksOf (calculate_chunk_size f.length) f) } := by
  obtain ⟨k, hk⟩ := np2_is_pow (chunksOf (calculate_chunk_size f.length) f).length
  have hlev : (leaf_level f).length = 2 ^ k := by rw [leaf_level_length, hk]
  have hnp2 : next_power_of_two (calculate_pieces f.length) ≤ 32 :=
    np2_le_pow (j := 5) (by omega)
  have hlevle : (leaf_level f).length ≤ 32 := by
    rw [leaf_level_length, chunksOf_length_pieces]
    exact hnp2
  have hflat : (nodesList (leaf_level f)).flatten.length =
      32 * (2 * (leaf_level f).length - 1) :=
    nodesList_flatten_length hlev (all32_leaf_level f)
  have hsize : (nodesList (leaf_level f)).flatten.length ≤ MAX_MERKLE_TREE_SIZE := by
    rw [hflat]
    simp only [MAX_MERKLE_TREE_SIZE, MAX_MERKLE_TREE_NODES, HASH_SIZE]
    omega
  rw [new_eq, if_pos hsize]

theorem boundary_none_of_mod {f : List Nat}
    (hmod : f.length % calculate_chunk_size f.length = 0) :
    boundaryFold (calculate_chunk_size f.length)
      (chunksOf (calculate_chunk_size f.length) f) = none :=
  (boundaryFold_none_iff _ _).mpr
    ((chunksOf_all_eq_iff _ (calculate_chunk_size_pos _) f).mpr hmod)

/-! ### C1: the chunk-hash / proof round trip. -/

/-- C1 (amended): for every successfully built tree and every valid
position other than a present boundary position, the § 4.3 verify
recomputation starting from `file_chunk_hash_at` over `merkle_proof`
reconstructs `merkle_root`.  (At the boundary position itself the lookup
returns the unpadded content hash while the tree leaf is the hash of the
zero-padded chunk, so the round trip fails there — see the
counterexample.) -/
theorem C1_round_trip (f : List Nat) (t : FileMerkleTree) (p : Nat)
    (h : FileMerkleTree.new f = some t) (hp : p < t.pieces)
    (hb : t.boundary_hash = none ∨ p ≠ t.pieces - 1) :
    ∃ leaf pr, t.file_chunk_hash_at p = some leaf ∧ t.merkle_proof p = some pr ∧
      verify leaf p pr t.merkle_root = true := by
  obtain ⟨hmt, hfs, hbh, _⟩ := new_some h
  obtain ⟨k, hk⟩ := np2_is_pow (chunksOf (calculate_chunk_size f.length) f).length
  have hlev : (leaf_level f).length = 2 ^ k := by rw [leaf_level_length, hk]
  have hpieces : t.pieces = calculate_pieces f.length := by
    rw [FileMerkleTree.pieces, hfs]
  have hplev : p < (leaf_level f).length :=
    lt_of_lt_of_le (hpieces ▸ hp) (pieces_le_leaf_level f)
  have hslice := merkle_tree_slice h p hplev
  have hchunk : t.file_chunk_hash_at p = some ((leaf_level f).getD p []) := by
    simp only [FileMerkleTree.file_chunk_hash_at]
    rw [if_neg (by omega : ¬ p ≥ t.pieces)]
    rcases hb with hb | hb
    · rw [if_neg (by simp [hb])]
      rw [hslice]
    · rw [if_neg (by intro hcon; exact hb hcon.1)]
      rw [hslice]
  have hnp2t : next_power_of_two t.pieces = 2 ^ k := by
    rw [hpieces, ← chunksOf_length_pieces, hk]
  have hproof : t.merkle_proof p = some (proof_spec (leaf_level f) p) := by
    simp only [FileMerkleTree.merkle_proof]
    rw [if_neg (by omega : ¬ p ≥ t.pieces)]
    congr 1
    rw [hnp2t, hmt]
    have := find_proof_eq_spec k (leaf_level f) [] 0 p hlev (all32_leaf_level f)
      hplev (by simp) (by norm_num)
    simpa using this
  refine ⟨_, _, hchunk, hproof, ?_⟩
  simp only [verify]
  rw [verifyGo_spec k (leaf_level f) p hlev hplev, merkle_root_of_new h]
  exact beq_self_eq_true _

/-- C1 counterexample: for the one-byte file `[0]` — a valid tree whose
single position 0 is the final boundary position — the round trip
computes `verify` over the boundary hash (SHA-256 of the single byte)
against a root equal to the hash of the zero-padded 1024-byte chunk, and
returns `false`. -/
theorem C1_counterexample :
    ((FileMerkleTree.new [0]).bind fun t =>
      (t.file_chunk_hash_at 0).bind fun leaf =>
        (t.merkle_proof 0).map fun pr => verify leaf 0 pr t.merkle_root) = some false := by
  have hnew := new_some_of_pieces_le [0] (by decide)
  have hlen0 : ([(0 : Nat)]).length = 1 := rfl
  have hcs : calculate_chunk_size 1 = 1024 := by decide
  have hchunks : chunksOf 1024 [(0 : Nat)] = [[0]] := by decide
  have hpad : chunkLeaf 1024 [(0 : Nat)] = sha256 (List.replicate 1024 0) := by
    simp only [chunkLeaf, hlen0]
    rw [if_pos (by norm_num)]
    congr 1
  have hleaf : leaf_level [(0 : Nat)] = [sha256 (List.replicate 1024 0)] := by
    simp only [leaf_level]
    rw [hlen0, hcs, hchunks]
    rw [show ([[(0 : Nat)]]).length = 1 from rfl,
      show next_power_of_two 1 = 1 from by decide]
    simp only [Nat.sub_self, List.replicate_zero, List.append_nil, List.map_cons,
      List.map_nil]
    rw [hpad]
  have hnodes : nodesList (leaf_level [(0 : Nat)]) = [sha256 (List.replicate 1024 0)] := by
    rw [hleaf, nodesList_eq_of_le _ (by simp)]
  have hbound :
      boundaryFold (calculate_chunk_size ([(0 : Nat)]).length)
        (chunksOf (calculate_chunk_size ([(0 : Nat)]).length) [0]) =
      some (sha256 [0]) := by
    rw [hlen0, hcs, hchunks]
    simp [boundaryFold]
  rw [hnodes, hbound] at hnew
  rw [hnew]
  simp only [Option.some_bind]
  have hpieces :
      FileMerkleTree.pieces
        { merkle_tree := [sha256 (List.replicate 1024 0)].flatten,
          file_size := [(0 : Nat)].length,
          boundary_hash := some (sha256 [0]) } = 1 := by
    simp only [FileMerkleTree.pieces, List.length_singleton]
    decide
  have hchunkat :
      FileMerkleTree.file_chunk_hash_at
        { merkle_tree := [sha256 (List.replicate 1024 0)].flatten,
          file_size := [(0 : Nat)].length,
          boundary_hash := some (sha256 [0]) } 0 = some (sha256 [0]) := by
    simp only [FileMerkleTree.file_chunk_hash_at, hpieces]
    rw [if_neg (by omega), if_pos (by simp)]
  have hproofat :
      FileMerkleTree.merkle_proof
        { merkle_tree := [sha256 (List.replicate 1024 0)].flatten,
          file_size := [(0 : Nat)].length,
          boundary_hash := some (sha256 [0]) } 0 = some [] := by
    simp only [FileMerkleTree.merkle_proof, hpieces]
    rw [if_neg (by omega), show next_power_of_two 1 = 1 from by decide]
    rfl
  rw [hchunkat, hproofat]
  simp only [Option.some_bind, Option.map_some']
  have hroot :
      FileMerkleTree.merkle_root
        { merkle_tree := [sha256 (List.replicate 1024 0)].flatten,
          file_size := [(0 : Nat)].length,
          boundary_hash := some (sha256 [0]) } = sha256 (List.replicate 1024 0) := by
    simp only [FileMerkleTree.merkle_root, List.flatten_cons, List.flatten_nil,
      List.append_nil, HASH_SIZE, sha256_length, Nat.sub_self, List.drop_zero]
  rw [hroot]
  simp only [verify, verifyGo]
  rw [sha256_single_zero, sha256_rep1024]
  decide

/-- C1 witness: a 2048-byte all-zero file has two full chunks and no
boundary; the round trip at position 0 verifies. -/
theorem C1_witness :
    ((FileMerkleTree.new (List.replicate 2048 0)).bind fun t =>
      (t.file_chunk_hash_at 0).bind fun leaf =>
        (t.merkle_proof 0).map fun pr => verify leaf 0 pr t.merkle_root) = some true := by
  have hnew := new_some_of_pieces_le (List.replicate 2048 0)
    (by rw [List.length_replicate]; decide)
  have hmod : (List.replicate 2048 (0 : Nat)).length %
      calculate_chunk_size (List.replicate 2048 (0 : Nat)).length = 0 := by
    rw [List.length_replicate]
    decide
  have hboundary := boundary_none_of_mod hmod
  rw [hboundary] at hnew
  have hpieces :
      FileMerkleTree.pieces
        { merkle_tree := (nodesList (leaf_level (List.replicate 2048 0))).flatten,
          file_size := (List.replicate 2048 (0 : Nat)).length,
          boundary_hash := none } = 2 := by
    simp only [FileMerkleTree.pieces, List.length_replicate]
    decide
  obtain ⟨leaf, pr, h1, h2, h3⟩ :=
    C1_round_trip (List.replicate 2048 0) _ 0 hnew (by rw [hpieces]; omega)
      (Or.inl rfl)
  rw [hnew]
  simp only [Option.some_bind]
  rw [h1]
  simp only [Option.some_bind]
  rw [h2]
  simp only [Option.map_some']
  rw [h3]

/-! ### C7: shape and content of `merkle_proof`. -/

/-- C7: `merkle_proof` returns nothing exactly for out-of-range
positions; a returned proof is the per-level bottom-to-top sibling path
over the padded leaf level, has length `log2(next_power_of_two(pieces))`,
and consists of 32-byte hashes (the root is excluded because the walk
stops at level width 1). -/
theorem C7_proof_shape (f : List Nat) (t : FileMerkleTree) (p : Nat)
    (h : FileMerkleTree.new f = some t) :
    (t.merkle_proof p = none ↔ t.pieces ≤ p) ∧
      ∀ pr, t.merkle_proof p = some pr →
        pr = proof_spec (leaf_level f) p ∧
          pr.length = Nat.log2 (next_power_of_two t.pieces) ∧
          ∀ x ∈ pr, x.length = 32 := by
  obtain ⟨hmt, hfs, hbh, _⟩ := new_some h
  obtain ⟨k, hk⟩ := np2_is_pow (chunksOf (calculate_chunk_size f.length) f).length
  have hlev : (leaf_level f).length = 2 ^ k := by rw [leaf_level_length, hk]
  have hpieces : t.pieces = calculate_pieces f.length := by
    rw [FileMerkleTree.pieces, hfs]
  have hnp2t : next_power_of_two t.pieces = 2 ^ k := by
    rw [hpieces, ← chunksOf_length_pieces, hk]
  constructor
  · by_cases hge : t.pieces ≤ p
    · simp [FileMerkleTree.merkle_proof, hge]
    · simp [FileMerkleTree.merkle_proof, hge]
  · intro pr hpr
    have hlt : p < t.pieces := by
      by_contra hcon
      simp [FileMerkleTree.merkle_proof, Nat.le_of_not_lt hcon] at hpr
    have hplev : p < (leaf_level f).length :=
      lt_of_lt_of_le (hpieces ▸ hlt) (pieces_le_leaf_level f)
    have hpr2 : pr = find_proof t.merkle_tree p 0 (next_power_of_two t.pieces) := by
      simp only [FileMerkleTree.merkle_proof] at hpr
      rw [if_neg (by omega)] at hpr
      injection hpr with hpr
      exact hpr.symm
    have hspec : pr = proof_spec (leaf_level f) p := by
      rw [hpr2, hnp2t, hmt]
      have := find_proof_eq_spec k (leaf_level f) [] 0 p hlev (all32_leaf_level f)
        hplev (by simp) (by norm_num)
      simpa using this
    refine ⟨hspec, ?_, ?_⟩
    · rw [hspec, proof_spec_length k _ p hlev, hnp2t, Nat.log2_two_pow]
    · rw [hspec]
      exact proof_spec_all32 k _ p hlev (all32_leaf_level f) hplev

/-- C7 witness: for the single-chunk 1024-byte zero file, position 1 is
rejected and the proof at position 0 is the empty sibling path. -/
theorem C7_witness :
    ((FileMerkleTree.new (List.replicate 1024 0)).map fun t => t.merkle_proof 1) =
        some none ∧
      ((FileMerkleTree.new (List.replicate 1024 0)).map fun t =>
          (t.merkle_proof 0).map List.length) = some (some 0) := by
  have hnew := new_some_of_pieces_le (List.replicate 1024 0)
    (by rw [List.length_replicate]; decide)
  have hpieces :
      FileMerkleTree.pieces
        { merkle_tree := (nodesList (leaf_level (List.replicate 1024 0))).flatten,
          file_size := (List.replicate 1024 (0 : Nat)).length,
          boundary_hash :=
            boundaryFold (calculate_chunk_size (List.replicate 1024 (0 : Nat)).length)
              (chunksOf (calculate_chunk_size (List.replicate 1024 (0 : Nat)).length)
                (List.replicate 1024 0)) } = 1 := by
    simp only [FileMerkleTree.pieces, List.length_replicate]
    decide
  obtain ⟨hiff, hsome⟩ := C7_proof_shape (List.replicate 1024 0) _ 1 hnew
  obtain ⟨hiff0, hsome0⟩ := C7_proof_shape (List.replicate 1024 0) _ 0 hnew
  have h1 := hiff.mpr (by rw [hpieces])
  constructor
  · rw [hnew]
    simp only [Option.map_some']
    rw [h1]
  · rcases hpr0 : FileMerkleTree.merkle_proof _ 0 with _ | pr
    · exact absurd (hiff0.mp hpr0) (by rw [hpieces]; omega)
    · obtain ⟨_, hlen, _⟩ := hsome0 pr hpr0
      rw [hnew]
      simp only [Option.map_some']
      rw [hpr0]
      simp only [Option.map_some']
      rw [hlen, hpieces]
      rw [show next_power_of_two 1 = 1 from by decide]
      rw [show Nat.log2 1 = 0 from by rw [Nat.log2]; norm_num]

/-! ### C8: `file_chunk_hash_at`. -/

/-- C8: the chunk-hash lookup returns nothing exactly for out-of-range
positions; the boundary hash of a constructed tree is present exactly
when the file size is not a multiple of the chunk size; for valid
positions the result is the boundary hash at a present boundary position
and otherwise the 32-byte slice at byte offset `32 * p` of the buffer;
every returned hash is 32 bytes. -/
theorem C8_chunk_hash (f : List Nat) (t : FileMerkleTree) (p : Nat)
    (h : FileMerkleTree.new f = some t) :
    (t.file_chunk_hash_at p = none ↔ t.pieces ≤ p) ∧
      (t.boundary_hash.isSome = true ↔
        ¬ f.length % calculate_chunk_size f.length = 0) ∧
      (p < t.pieces →
        t.file_chunk_hash_at p =
          if p = t.pieces - 1 ∧ t.boundary_hash.isSome then t.boundary_hash
          else some ((t.merkle_tree.drop (p * HASH_SIZE)).take HASH_SIZE)) ∧
      ∀ x, t.file_chunk_hash_at p = some x → x.length = 32 := by
  obtain ⟨hmt, hfs, hbh, _⟩ := new_some h
  have hpieces : t.pieces = calculate_pieces f.length := by
    rw [FileMerkleTree.pieces, hfs]
  have hisome : t.boundary_hash.isSome = true ↔
      ¬ f.length % calculate_chunk_size f.length = 0 := by
    rw [hbh]
    exact boundaryFold_isSome_iff f
  refine ⟨?_, hisome, ?_, ?_⟩
  · constructor
    · intro hnone
      by_contra hcon
      have hlt : p < t.pieces := by omega
      simp only [FileMerkleTree.file_chunk_hash_at] at hnone
      rw [if_neg (by omega)] at hnone
      by_cases hcond : p = t.pieces - 1 ∧ t.boundary_hash.isSome
      · rw [if_pos hcond] at hnone
        rw [hnone] at hcond
        simp at hcond
      · rw [if_neg hcond] at hnone
        cases hnone
    · intro hge
      simp only [FileMerkleTree.file_chunk_hash_at]
      rw [if_pos (by omega)]
  · intro hlt
    simp only [FileMerkleTree.file_chunk_hash_at]
    rw [if_neg (by omega)]
  · intro x hx
    by_cases hge : t.pieces ≤ p
    · simp only [FileMerkleTree.file_chunk_hash_at] at hx
      rw [if_pos (by omega)] at hx
      cases hx
    · have hlt : p < t.pieces := by omega
      have hplev : p < (leaf_level f).length :=
        lt_of_lt_of_le (hpieces ▸ hlt) (pieces_le_leaf_level f)
      simp only [FileMerkleTree.file_chunk_hash_at] at hx
      rw [if_neg (by omega)] at hx
      by_cases hcond : p = t.pieces - 1 ∧ t.boundary_hash.isSome
      · rw [if_pos hcond] at hx
        obtain ⟨b, hb⟩ := Option.isSome_iff_exists.mp hcond.2
        rw [hb] at hx
        injection hx with hx
        rw [hb] at hbh
        rw [← hx]
        exact boundaryFold_some_length _ _ none b (by intro y hy; cases hy) hbh.symm
      · rw [if_neg hcond] at hx
        injection hx with hx
        rw [← hx, merkle_tree_slice h p hplev,
          List.getD_eq_getElem _ [] hplev]
        exact all32_leaf_level f _ (List.getElem_mem hplev)

/-- C8 witness: for the single-chunk 1024-byte zero file, position 1 is
rejected and the hash at position 0 is a 32-byte value. -/
theorem C8_witness :
    ((FileMerkleTree.new (List.replicate 1024 0)).map fun t =>
        t.file_chunk_hash_at 1) = some none ∧
      ((FileMerkleTree.new (List.replicate 1024 0)).map fun t =>
          (t.file_chunk_hash_at 0).map List.length) = some (some 32) := by
  have hnew := new_some_of_pieces_le (List.replicate 1024 0)
    (by rw [List.length_replicate]; decide)
  have hpieces :
      FileMerkleTree.pieces
        { merkle_tree := (nodesList (leaf_level (List.replicate 1024 0))).flatten,
          file_size := (List.replicate 1024 (0 : Nat)).length,
          boundary_hash :=
            boundaryFold (calculate_chunk_size (List.replicate 1024 (0 : Nat)).length)
              (chunksOf (calculate_chunk_size (List.replicate 1024 (0 : Nat)).length)
                (List.replicate 1024 0)) } = 1 := by
    simp only [FileMerkleTree.pieces, List.length_replicate]
    decide
  obtain ⟨hiff1, _, _, _⟩ := C8_chunk_hash (List.replicate 1024 0) _ 1 hnew
  obtain ⟨hiff0, _, _, hlen0⟩ := C8_chunk_hash (List.replicate 1024 0) _ 0 hnew
  constructor
  · rw [hnew]
    simp only [Option.map_some']
    rw [hiff1.mpr (by rw [hpieces])]
  · rcases hx : FileMerkleTree.file_chunk_hash_at _ 0 with _ | x
    · exact absurd (hiff0.mp hx) (by rw [hpieces]; omega)
    · rw [hnew]
      simp only [Option.map_some']
      rw [hx]
      simp only [Option.map_some']
      rw [hlen0 x hx]

/-! ### C10: totality and in-boundedness of the proof walk. -/

/-- Parallel induction to `find_proof_eq_spec`: every sibling slice the
walk takes lies inside the buffer, and the `position - first_index`
subtraction never underflows. -/
theorem find_proof_bounds_spec :
    ∀ (k : Nat) (L : List (List Nat)) (pre : List Nat) (fi p : Nat),
      L.length = 2 ^ k → All32 L → p < L.length → pre.length = fi * 32 → fi % 2 = 0 →
      find_proof_in_bounds (pre ++ (nodesList L).flatten) (fi + p) fi (2 ^ k) = true := by
  intro k
  induction k with
  | zero =>
    intro L pre fi p hlen _ _ _ _
    rw [find_proof_in_bounds_eq, if_pos (by norm_num)]
  | succ m ih =>
    intro L pre fi p hlen h32 hp hpre hfi
    have hone : 1 ≤ 2 ^ m := Nat.one_le_two_pow
    have hpow : (2 : Nat) ^ (m + 1) = 2 * 2 ^ m := by ring
    have hL2 : ¬ L.length ≤ 1 := by omega
    have hnodes : (nodesList L).flatten =
        L.flatten ++ (nodesList (combinePairs L)).flatten := by
      rw [nodesList_eq_of_gt L hL2, List.flatten_append]
    have htotal : (pre ++ (nodesList L).flatten).length =
        fi * 32 + 32 * (2 * L.length - 1) := by
      rw [List.length_append, hpre, nodesList_flatten_length hlen h32]
    have hparity : (fi + p) % 2 = p % 2 := by omega
    have hsib :
        (if (fi + p) % 2 = 0 then fi + p + 1 else fi + p - 1) =
          fi + (if p % 2 = 0 then p + 1 else p - 1) := by
      rw [hparity]
      by_cases hpar : p % 2 = 0
      · simp only [if_pos hpar]
        omega
      · simp only [if_neg hpar]
        omega
    have hsibrange : (if p % 2 = 0 then p + 1 else p - 1) < L.length := by
      by_cases hpar : p % 2 = 0
      · simp only [if_pos hpar]
        omega
      · simp only [if_neg hpar]
        omega
    have hparent : (fi + p - fi) / 2 + fi + 2 ^ (m + 1) =
        (fi + 2 ^ (m + 1)) + p / 2 := by omega
    have hprelen : (pre ++ L.flatten).length = (fi + 2 ^ (m + 1)) * 32 := by
      rw [List.length_append, hpre, all32_flatten_length h32, hlen]
      ring
    have hfieven : (fi + 2 ^ (m + 1)) % 2 = 0 := by
      have : (2 : Nat) ^ (m + 1) % 2 = 0 := by omega
      omega
    have hclen : (combinePairs L).length = 2 ^ m := by
      rw [combinePairs_length, hlen]
      omega
    have hp2 : p / 2 < (combinePairs L).length := by
      rw [hclen]
      omega
    rw [find_proof_in_bounds_eq, if_neg (by omega : ¬ 2 ^ (m + 1) ≤ 1)]
    rw [hsib, hparent]
    have hhalf : 2 ^ (m + 1) / 2 = 2 ^ m := by omega
    rw [hhalf]
    have hrec : find_proof_in_bounds (pre ++ (nodesList L).flatten)
        (fi + 2 ^ (m + 1) + p / 2) (fi + 2 ^ (m + 1)) (2 ^ m) = true := by
      rw [hnodes, ← List.append_assoc]
      exact ih (combinePairs L) (pre ++ L.flatten) (fi + 2 ^ (m + 1)) (p / 2) hclen
        (all32_combinePairs L) hp2 hprelen hfieven
    have hinrange : (fi + (if p % 2 = 0 then p + 1 else p - 1) + 1) * HASH_SIZE ≤
        (pre ++ (nodesList L).flatten).length := by
      rw [htotal]
      simp only [HASH_SIZE]
      have h1 : (if p % 2 = 0 then p + 1 else p - 1) + 1 ≤ L.length := by omega
      omega
    simp only [Bool.and_eq_true, decide_eq_true_eq]
    exact ⟨⟨hinrange, by omega⟩, hrec⟩

/-- C10: for every constructed tree and every position, `merkle_proof` is
total — out-of-range positions are rejected up front, and for valid
positions every slice index that `find_proof` takes into the buffer
(sibling and parent offsets at each level) stays inside the buffer, as
checked by the step-by-step bounds checker. -/
theorem C10_total (f : List Nat) (t : FileMerkleTree) (p : Nat)
    (h : FileMerkleTree.new f = some t) :
    (t.pieces ≤ p → t.merkle_proof p = none) ∧
      (p < t.pieces →
        find_proof_in_bounds t.merkle_tree p 0 (next_power_of_two t.pieces) = true) := by
  obtain ⟨hmt, hfs, hbh, _⟩ := new_some h
  obtain ⟨k, hk⟩ := np2_is_pow (chunksOf (calculate_chunk_size f.length) f).length
  have hlev : (leaf_level f).length = 2 ^ k := by rw [leaf_level_length, hk]
  have hpieces : t.pieces = calculate_pieces f.length := by
    rw [FileMerkleTree.pieces, hfs]
  have hnp2t : next_power_of_two t.pieces = 2 ^ k := by
    rw [hpieces, ← chunksOf_length_pieces, hk]
  constructor
  · intro hge
    simp [FileMerkleTree.merkle_proof, hge]
  · intro hlt
    have hplev : p < (leaf_level f).length :=
      lt_of_lt_of_le (hpieces ▸ hlt) (pieces_le_leaf_level f)
    rw [hnp2t, hmt]
    have := find_proof_bounds_spec k (leaf_level f) [] 0 p hlev (all32_leaf_level f)
      hplev (by simp) (by norm_num)
    simpa using this

/-- C10 witness: for the two-chunk 2048-byte zero file, the bounds
checker accepts position 0 and position 5 is rejected up front. -/
theorem C10_witness :
    ((FileMerkleTree.new (List.replicate 2048 0)).map fun t =>
        find_proof_in_bounds t.merkle_tree 0 0 (next_power_of_two t.pieces)) =
        some true ∧
      ((FileMerkleTree.new (List.replicate 2048 0)).map fun t => t.merkle_proof 5) =
        some none := by
  have hnew := new_some_of_pieces_le (List.replicate 2048 0)
    (by rw [List.length_replicate]; decide)
  have hpieces :
      FileMerkleTree.pieces
        { merkle_tree := (nodesList (leaf_level (List.replicate 2048 0))).flatten,
          file_size := (List.replicate 2048 (0 : Nat)).length,
          boundary_hash :=
            boundaryFold (calculate_chunk_size (List.replicate 2048 (0 : Nat)).length)
              (chunksOf (calculate_chunk_size (List.replicate 2048 (0 : Nat)).length)
                (List.replicate 2048 0)) } = 2 := by
    simp only [FileMerkleTree.pieces, List.length_replicate]
    decide
  obtain ⟨hreject, hbounds⟩ := C10_total (List.replicate 2048 0) _ 0 hnew
  obtain ⟨hreject5, _⟩ := C10_total (List.replicate 2048 0) _ 5 hnew
  constructor
  · rw [hnew]
    simp only [Option.map_some']
    rw [hbounds (by rw [hpieces]; omega)]
  · rw [hnew]
    simp only [Option.map_some']
    rw [hreject5 (by rw [hpieces]; omega)]

/-! ### C2 and C5: the SCALE codec. -/

/-- C2 (code bug): a valid tree with `file_size = 1024`, no boundary and
a 32-byte buffer does not round-trip: the stray second
`input.read(&mut buff)?` after the boundary step consumes the first four
bytes of the `merkle_tree` field, so decoding the encoding returns a tree
whose buffer lost its first four bytes. -/
theorem C2_round_trip_fails :
    FileMerkleTree.decode
        (FileMerkleTree.encode
          { merkle_tree := List.replicate 32 1, file_size := 1024, boundary_hash := none }) =
      FileMerkleTree.DecodeResult.ok
        { merkle_tree := List.replicate 28 1, file_size := 1024, boundary_hash := none } ∧
      ({ merkle_tree := List.replicate 28 1, file_size := 1024,
          boundary_hash := none } : FileMerkleTree) ≠
        { merkle_tree := List.replicate 32 1, file_size := 1024, boundary_hash := none } := by
  decide

/-- C5 (code bug): an input whose four length bytes announce a boundary
(`file_size = 1`, so `has_boundary` holds) but with no further bytes
makes `decode` panic — `input.read(&mut bytes).unwrap()` unwraps the
failed 32-byte read — instead of returning a decode error. -/
theorem C5_truncated_boundary_panics :
    FileMerkleTree.decode [1, 0, 0, 0] = FileMerkleTree.DecodeResult.panicked := by
  decide

/-! ### C9: the content-address encoder. -/

/-- C9 counterexample: the code's identifier for the all-zero hash is 46
characters of base-58, not the 59 characters (one multibase tag plus 58
unpadded base-32 digits of the 36 prefixed bytes) that the claimed scheme
produces for any fixed 4-byte prefix. -/
theorem C9_counterexample :
    (ipfs_get_hash_from_sha256 (List.replicate 32 0)).length = 46 ∧
      (content_address_spec (List.replicate 32 0)).length = 59 ∧
      ipfs_get_hash_from_sha256 (List.replicate 32 0) ≠
        content_address_spec (List.replicate 32 0) := by
  decide

theorem natToBase58Go_fuel :
    ∀ fuel1 fuel2 n, n ≤ fuel1 → n ≤ fuel2 →
      natToBase58Go fuel1 n = natToBase58Go fuel2 n := by
  intro fuel1
  induction fuel1 with
  | zero =>
    intro fuel2 n h1 _
    have : n = 0 := by omega
    subst this
    cases fuel2 with
    | zero => rfl
    | succ m => simp [natToBase58Go]
  | succ k ih =>
    intro fuel2 n h1 h2
    by_cases hn : n = 0
    · subst hn
      cases fuel2 with
      | zero => rfl
      | succ m => simp [natToBase58Go]
    · cases fuel2 with
      | zero => omega
      | succ m =>
        simp only [natToBase58Go, if_neg hn]
        have hdiv : n / 58 < n := Nat.div_lt_self (by omega) (by norm_num)
        rw [ih m (n / 58) (by omega) (by omega)]

theorem natToBase58_eq (n : Nat) :
    natToBase58 n = if n = 0 then [] else natToBase58 (n / 58) ++ [n % 58] := by
  by_cases hn : n = 0
  · subst hn
    rfl
  · rw [if_neg hn]
    simp only [natToBase58]
    obtain ⟨m, rfl⟩ : ∃ m, n = m + 1 := ⟨n - 1, by omega⟩
    simp only [natToBase58Go, if_neg hn]
    have hdiv : (m + 1) / 58 ≤ m := by
      have := Nat.div_lt_self (show 0 < m + 1 by omega) (show 1 < 58 by norm_num)
      omega
    rw [natToBase58Go_fuel m ((m + 1) / 58) _ hdiv (Nat.le_refl _)]

theorem natToBase58_digits_lt (n : Nat) : ∀ d ∈ natToBase58 n, d < 58 := by
  induction n using Nat.strong_induction_on with
  | _ n ih =>
    intro d hd
    rw [natToBase58_eq] at hd
    by_cases hn : n = 0
    · rw [if_pos hn] at hd
      simp at hd
    · rw [if_neg hn] at hd
      rcases List.mem_append.mp hd with hd | hd
      · exact ih (n / 58) (Nat.div_lt_self (by omega) (by norm_num)) d hd
      · simp only [List.mem_singleton] at hd
        subst hd
        exact Nat.mod_lt _ (by norm_num)

theorem natToBase58_inj : ∀ a b : Nat, natToBase58 a = natToBase58 b → a = b := by
  intro a
  induction a using Nat.strong_induction_on with
  | _ a ih =>
    intro b heq
    rw [natToBase58_eq a, natToBase58_eq b] at heq
    by_cases ha : a = 0 <;> by_cases hb : b = 0
    · omega
    · rw [if_pos ha, if_neg hb] at heq
      have := congrArg List.length heq
      simp at this
    · rw [if_neg ha, if_pos hb] at heq
      have := congrArg List.length heq
      simp at this
    · rw [if_neg ha, if_neg hb] at heq
      have hr := congrArg List.reverse heq
      simp only [List.reverse_append, List.reverse_singleton, List.singleton_append,
        List.cons.injEq] at hr
      obtain ⟨hmod, hrev⟩ := hr
      have htails : natToBase58 (a / 58) = natToBase58 (b / 58) :=
        List.reverse_injective hrev
      have hdivs : a / 58 = b / 58 :=
        ih (a / 58) (Nat.div_lt_self (by omega) (by norm_num)) _ htails
      omega

theorem base58_alphabet_inj :
    ∀ d1, d1 < 58 → ∀ d2, d2 < 58 →
      BASE58_ALPHABET.getD d1 0 = BASE58_ALPHABET.getD d2 0 → d1 = d2 := by
  decide

theorem map_alphabet_inj :
    ∀ l1 l2 : List Nat, (∀ d ∈ l1, d < 58) → (∀ d ∈ l2, d < 58) →
      l1.map (fun d => BASE58_ALPHABET.getD d 0) =
        l2.map (fun d => BASE58_ALPHABET.getD d 0) → l1 = l2 := by
  intro l1
  induction l1 with
  | nil =>
    intro l2 _ _ heq
    cases l2 with
    | nil => rfl
    | cons y u => simp at heq
  | cons x t ih =>
    intro l2 hb1 hb2 heq
    cases l2 with
    | nil => simp at heq
    | cons y u =>
      simp only [List.map_cons, List.cons.injEq] at heq
      have hx : x = y :=
        base58_alphabet_inj x (hb1 x (by simp)) y (hb2 y (by simp)) heq.1
      have ht : t = u :=
        ih u (fun d hd => hb1 d (by simp [hd])) (fun d hd => hb2 d (by simp [hd])) heq.2
      rw [hx, ht]

theorem bytesToNat_acc :
    ∀ (l1 l2 : List Nat) (a1 a2 : Nat), l1.length = l2.length →
      (∀ b ∈ l1, b < 256) → (∀ b ∈ l2, b < 256) →
      List.foldl (fun acc b => acc * 256 + b) a1 l1 =
        List.foldl (fun acc b => acc * 256 + b) a2 l2 →
      a1 = a2 ∧ l1 = l2 := by
  intro l1
  induction l1 with
  | nil =>
    intro l2 a1 a2 hlen _ _ heq
    have : l2 = [] := List.eq_nil_of_length_eq_zero (by simp at hlen; omega)
    subst this
    exact ⟨heq, rfl⟩
  | cons x t ih =>
    intro l2 a1 a2 hlen hb1 hb2 heq
    cases l2 with
    | nil => simp at hlen
    | cons y u =>
      simp only [List.foldl_cons] at heq
      have hrec := ih u (a1 * 256 + x) (a2 * 256 + y) (by simp at hlen; omega)
        (fun b hb => hb1 b (by simp [hb])) (fun b hb => hb2 b (by simp [hb])) heq
      have hx : x < 256 := hb1 x (by simp)
      have hy : y < 256 := hb2 y (by simp)
      have : a1 = a2 ∧ x = y := by omega
      exact ⟨this.1, by rw [this.2, hrec.2]⟩

/-- C9 (amended): `ipfs_get_hash_from_sha256` prepends the fixed 2-byte
multihash prefix 0x12 0x20 (sha2-256, 32-byte digest) and base-58
encodes the result with the Bitcoin alphabet — a CIDv0 identifier with no
multibase tag and no base-32 step — and this mapping is deterministic and
collision-free (injective) over 32-byte hashes. -/
theorem C9_content_address_injective (h1 h2 : List Nat)
    (hl1 : h1.length = 32) (hl2 : h2.length = 32)
    (hb1 : ∀ b ∈ h1, b < 256) (hb2 : ∀ b ∈ h2, b < 256)
    (heq : ipfs_get_hash_from_sha256 h1 = ipfs_get_hash_from_sha256 h2) : h1 = h2 := by
  have key : ∀ h : List Nat,
      ipfs_get_hash_from_sha256 h =
        (natToBase58 (bytesToNat (0x12 :: 0x20 :: h))).map
          (fun d => BASE58_ALPHABET.getD d 0) := by
    intro h
    simp only [ipfs_get_hash_from_sha256, bs58_encode]
    rw [show ((0x12 : Nat) :: 0x20 :: h).takeWhile (fun b => b == 0) = [] from rfl]
    simp
  rw [key, key] at heq
  have hdig := map_alphabet_inj _ _ (natToBase58_digits_lt _) (natToBase58_digits_lt _) heq
  have hnat := natToBase58_inj _ _ hdig
  have hlists := bytesToNat_acc (0x12 :: 0x20 :: h1) (0x12 :: 0x20 :: h2) 0 0
    (by simp [hl1, hl2])
    (by
      intro b hb
      simp only [List.mem_cons] at hb
      rcases hb with rfl | rfl | hb
      · norm_num
      · norm_num
      · exact hb1 b hb)
    (by
      intro b hb
      simp only [List.mem_cons] at hb
      rcases hb with rfl | rfl | hb
      · norm_num
      · norm_num
      · exact hb2 b hb)
    (by simpa [bytesToNat] using hnat)
  have := hlists.2
  simp only [List.cons.injEq, true_and] at this
  exact this

/-- C9 witness: the amended injectivity applied at the all-zero 32-byte
hash. -/
theorem C9_witness :
    (List.replicate 32 (0 : Nat)).length = 32 ∧
      (∀ b ∈ List.replicate 32 (0 : Nat), b < 256) ∧
      List.replicate 32 (0 : Nat) = List.replicate 32 0 :=
  ⟨by decide, by decide,
    C9_content_address_injective (List.replicate 32 0) (List.replicate 32 0)
      (by decide) (by decide) (by decide) (by decide) rfl⟩

end TFS
